import Mathlib

/-!
Shallow embedding of the dependency-graph engine of the `dbgraph` repository
(`internal/graph/graph.go`, `internal/graph/trace.go` and the impact command),
together with proofs about the claims of its specification.

Go maps are modelled as association lists kept in insertion order; `int64`
is modelled as `Int`; recursion whose termination in Go rests on the
finiteness of the node set is modelled with an explicit fuel parameter that
the top-level entry points instantiate with a provably sufficient bound
(an `Option` result records whether the fuel sufficed).
-/

namespace DbGraph

/-- `NodeType` from `graph.go` / `trace.go` (`TABLE`, `VIEW`, `TRIGGER`). -/
inductive NodeType where
  | Table
  | View
  | TriggerTy
deriving DecidableEq, Repr

/-- `DependencyType` from `trace.go`
(`FOREIGN_KEY`, `VIEW_DEPENDS`, `TRIGGER_ACTION`, `INHERITANCE`). -/
inductive DependencyType where
  | ForeignKey
  | ViewDepends
  | TriggerAction
  | Inheritance
deriving DecidableEq, Repr

/-- `Node` from `graph.go`: a database object. -/
structure Node where
  id : String
  schema : String
  name : String
  type : NodeType
  size : String
  rowCount : Int
  indexes : List (List String)
deriving DecidableEq, Repr

/-- `Edge` from `graph.go`: a directed dependency `source -> target`.
`metaData` models the Go `map[string]string` as an association list. -/
structure Edge where
  sourceID : String
  targetID : String
  type : DependencyType
  constraintName : String
  deleteRule : String
  metaData : List (String × String)
deriving DecidableEq, Repr

/-- Association-list lookup, modelling reads from a Go map. -/
def alookup {α : Type} : List (String × α) → String → Option α
  | [], _ => none
  | (k, v) :: rest, x => if k = x then some v else alookup rest x

/-- Update the value stored at an existing key of an association list. -/
def aupdate {α : Type} : List (String × α) → String → (α → α) → List (String × α)
  | [], _, _ => []
  | (k, v) :: rest, x, f =>
      if k = x then (k, f v) :: rest else (k, v) :: aupdate rest x f

/-- `Graph` from `graph.go`: node map and adjacency map, modelled as
association lists in insertion order (one admissible iteration order of the
Go maps). -/
structure Graph where
  nodes : List (String × Node)
  edges : List (String × List Edge)
deriving DecidableEq, Repr

/-- `NewGraph` from `graph.go`. -/
def newGraph : Graph := { nodes := [], edges := [] }

/-- The backfill performed by `AddNode` on an already-present node:
fill `Size` only when it was empty, fill `RowCount` only when it was zero. -/
def backfill (n : Node) (size : String) (rowCount : Int) : Node :=
  { n with
    size := if n.size = "" ∧ size ≠ "" then size else n.size,
    rowCount := if n.rowCount = 0 ∧ rowCount ≠ 0 then rowCount else n.rowCount }

/-- `AddNode` from `graph.go`. -/
def Graph.addNode (g : Graph) (schema name : String) (ty : NodeType)
    (size : String) (rowCount : Int) : Graph :=
  let id := schema ++ "." ++ name
  match alookup g.nodes id with
  | none =>
      { g with nodes := g.nodes ++
          [(id, { id := id, schema := schema, name := name, type := ty,
                  size := size, rowCount := rowCount, indexes := [] })] }
  | some _ =>
      { g with nodes := aupdate g.nodes id (fun n => backfill n size rowCount) }

/-- `AddIndex` from `graph.go`: append a column sequence to an existing
node's index list; no-op when the node is unknown. -/
def Graph.addIndex (g : Graph) (schema name : String) (columns : List String) : Graph :=
  let id := schema ++ "." ++ name
  match alookup g.nodes id with
  | none => g
  | some _ =>
      { g with nodes :=
          aupdate g.nodes id (fun n => { n with indexes := n.indexes ++ [columns] }) }

/-- Append an edge to the adjacency list of `key`, creating the entry when
absent (`g.Edges[sourceID] = append(g.Edges[sourceID], edge)`). -/
def adjAppend : List (String × List Edge) → String → Edge → List (String × List Edge)
  | [], k, e => [(k, [e])]
  | (k, es) :: rest, key, e =>
      if k = key then (k, es ++ [e]) :: rest else (k, es) :: adjAppend rest key e

/-- The `if _, ok := g.Nodes[id]; !ok { g.AddNode(..., Table, "", 0) }`
blocks at the start of `AddEdge`: create the endpoint as a placeholder
`Table` node when it is missing. -/
def Graph.ensureNode (g : Graph) (schema name : String) : Graph :=
  match alookup g.nodes (schema ++ "." ++ name) with
  | none => g.addNode schema name NodeType.Table "" 0
  | some _ => g

/-- `AddEdge` from `graph.go`: auto-create missing endpoints as `Table`
nodes with empty size and zero row count, then append the edge. -/
def Graph.addEdge (g : Graph) (sourceSchema sourceName targetSchema targetName : String)
    (depType : DependencyType) (constraintName deleteRule : String) : Graph :=
  let sourceID := sourceSchema ++ "." ++ sourceName
  let targetID := targetSchema ++ "." ++ targetName
  let g2 := (g.ensureNode sourceSchema sourceName).ensureNode targetSchema targetName
  let edge : Edge :=
    { sourceID := sourceID, targetID := targetID, type := depType,
      constraintName := constraintName, deleteRule := deleteRule, metaData := [] }
  { g2 with edges := adjAppend g2.edges sourceID edge }

/-- The reverse-adjacency map built inside `GetDownstream`
(`reverseEdges[edge.TargetID] = append(reverseEdges[edge.TargetID], src)`). -/
def revAppend : List (String × List String) → String → String → List (String × List String)
  | [], k, s => [(k, [s])]
  | (k, vs) :: rest, key, s =>
      if k = key then (k, vs ++ [s]) :: rest else (k, vs) :: revAppend rest key s

/-- Pre-computation of reverse edges in `GetDownstream` of `graph.go`. -/
def Graph.reverseSources (g : Graph) : List (String × List String) :=
  g.edges.foldl (fun m p => p.2.foldl (fun m e => revAppend m e.targetID p.1) m) []

/-- State of the breadth-first traversal of `GetDownstream`; `queue` holds
the not-yet-processed part of the Go queue slice. -/
structure BfsSt where
  visited : List String
  impacted : List String
  queue : List String
deriving Repr

/-- One dependent considered by the inner loop of `GetDownstream`. -/
def bfsVisit (st : BfsSt) (dep : String) : BfsSt :=
  if dep ∈ st.visited then st
  else { visited := st.visited ++ [dep],
         impacted := st.impacted ++ [dep],
         queue := st.queue ++ [dep] }

/-- The `for idx < len(queue)` loop of `GetDownstream`. -/
def bfsLoop (rev : List (String × List String)) : Nat → BfsSt → List String
  | 0, st => st.impacted
  | fuel + 1, st =>
      match st.queue with
      | [] => st.impacted
      | current :: rest =>
          let deps := (alookup rev current).getD []
          bfsLoop rev fuel (deps.foldl bfsVisit { st with queue := rest })

/-- Total number of edges stored in the adjacency map. -/
def Graph.edgeCount (g : Graph) : Nat :=
  g.edges.foldl (fun acc p => acc + p.2.length) 0

/-- `GetDownstream` from `graph.go`: all nodes that transitively depend on
`nodeID`, found by BFS over the reverse edges.  The fuel bounds the number
of loop iterations, which in Go is the final queue length; every enqueued
element beyond the seed corresponds to a distinct newly-visited dependent,
of which there are at most `edgeCount` (dependents come from edge sources),
so the chosen fuel is sufficient and the model is total. -/
def Graph.getDownstream (g : Graph) (nodeID : String) : List String :=
  let rev := g.reverseSources
  bfsLoop rev (1 + g.nodes.length + g.edgeCount)
    { visited := [nodeID], impacted := [], queue := [nodeID] }

/-- The ids of all nodes of the graph, in insertion order. -/
def Graph.nodeKeys (g : Graph) : List String :=
  g.nodes.map Prod.fst

/-- The successor ids of `id`: the targets of `g.Edges[id]`, in order. -/
def Graph.succs (g : Graph) (id : String) : List String :=
  ((alookup g.edges id).getD []).map (fun e => e.targetID)

/-- Fuel for the longest-path search of `AnalyzeTopology`.  The Go
recursion `getDepth` pushes a node on the path stack before recursing and
returns immediately for nodes already on the stack, so the stack stays
duplicate-free; its entries are the initial node plus edge targets, of
which there are at most `nodes.length + edgeCount`, so this fuel is
sufficient and the model never exhausts it. -/
def Graph.lpFuel (g : Graph) : Nat := g.nodes.length + g.edgeCount + 2

/-- The `for _, edge := range g.Edges[id]` loop of `getDepth`: the maximum
of the successors' depths as computed by `rec` (`0` for no successors),
threading the memo table left to right. -/
def getDepthList (rec : String → List (String × Nat) → Option (Nat × List (String × Nat))) :
    List String → List (String × Nat) → Option (Nat × List (String × Nat))
  | [], memo => some (0, memo)
  | w :: ws, memo =>
      match rec w memo with
      | none => none
      | some (d, memo1) =>
          match getDepthList rec ws memo1 with
          | none => none
          | some (maxD, memo2) => some (max d maxD, memo2)

/-- The memoized depth-first search `getDepth` inside `AnalyzeTopology` of
`trace.go`: depth of the longest chain starting at `id` (`1 + max` over
successors), returning memoized values unchanged, contributing `0` for a
neighbour already on the current path stack (cycle guard), and recording
the computed value in the memo table shared across the whole analysis. -/
def getDepth (g : Graph) : Nat → String → List String → List (String × Nat) →
    Option (Nat × List (String × Nat))
  | 0, _, _, _ => none
  | fuel + 1, id, pathStack, memo =>
      match alookup memo id with
      | some d => some (d, memo)
      | none =>
          if id ∈ pathStack then some (0, memo)
          else
            match getDepthList (fun w m => getDepth g fuel w (id :: pathStack) m)
                (g.succs id) memo with
            | none => none
            | some (maxD, memo1) => some (1 + maxD, (id, 1 + maxD) :: memo1)

/-- The `for id := range g.Nodes` loop computing `maxPath` in
`AnalyzeTopology`: each node is searched with a fresh path stack, the memo
table persists across iterations, and the running maximum is updated. -/
def analyzeFold (g : Graph) : List (String × Node) → Nat × List (String × Nat) →
    Option (Nat × List (String × Nat))
  | [], st => some st
  | (id, _) :: rest, (maxPath, memo) =>
      match getDepth g g.lpFuel id [] memo with
      | none => none
      | some (d, memo1) => analyzeFold g rest (max maxPath d, memo1)

/-- The longest-path part of `AnalyzeTopology`: the final `maxPath`
(`stats.LongestPath`) together with the final memo table of per-node
depths. -/
def Graph.analyzeLongest (g : Graph) : Option (Nat × List (String × Nat)) :=
  analyzeFold g g.nodes (0, [])

/-- `stats.LongestPath` as computed by `AnalyzeTopology`. -/
def Graph.longestPath (g : Graph) : Option Nat :=
  g.analyzeLongest.map (fun p => p.1)

/-- The depth value computed by `AnalyzeTopology`'s memoized search for a
given node: its entry in the final memo table. -/
def Graph.depthOf (g : Graph) (n : String) : Option Nat :=
  match g.analyzeLongest with
  | none => none
  | some (_, memo) => alookup memo n

/-- One step of a directed path: `b` is a successor of `a`. -/
def stepRel (g : Graph) (a b : String) : Prop := b ∈ g.succs a

instance (g : Graph) (a b : String) : Decidable (stepRel g a b) :=
  inferInstanceAs (Decidable (b ∈ g.succs a))

/-- `p` is a directed path of the graph starting at `n`: a nonempty list
of consecutive successors whose head is `n`.  Its `length` is the number
of nodes on the path. -/
def ChainFrom (g : Graph) (n : String) (p : List String) : Prop :=
  p.Chain' (stepRel g) ∧ p.head? = some n

instance (g : Graph) (n : String) (p : List String) : Decidable (ChainFrom g n p) :=
  inferInstanceAs (Decidable (p.Chain' (stepRel g) ∧ p.head? = some n))

/-- Every edge target is a node of the graph.  This holds for every graph
built through `AddEdge`, which auto-creates missing endpoints. -/
def Closed (g : Graph) : Prop :=
  ∀ p ∈ g.edges, ∀ e ∈ p.2, e.targetID ∈ g.nodeKeys

instance (g : Graph) : Decidable (Closed g) :=
  inferInstanceAs (Decidable (∀ p ∈ g.edges, ∀ e ∈ p.2, e.targetID ∈ g.nodeKeys))

/-- The graph has no directed cycle: every directed path is
duplicate-free. -/
def Acyclic (g : Graph) : Prop :=
  ∀ p : List String, p.Chain' (stepRel g) → p.Nodup

/-- The strict five-node chain A→B→C→D→E of the specification. -/
def gChain : Graph :=
  ((((newGraph.addEdge "public" "A" "public" "B"
      DependencyType.ForeignKey "fk1" "NO ACTION").addEdge
      "public" "B" "public" "C" DependencyType.ForeignKey "fk2" "NO ACTION").addEdge
      "public" "C" "public" "D" DependencyType.ForeignKey "fk3" "NO ACTION").addEdge
      "public" "D" "public" "E" DependencyType.ForeignKey "fk4" "NO ACTION")

/-- The five-node chain with the additional back-edge E→A. -/
def gChainCycle : Graph :=
  gChain.addEdge "public" "E" "public" "A" DependencyType.ForeignKey "fk5" "NO ACTION"

/-- A two-node cycle B⇄A in which the node map iterates B before A. -/
def gCyc2 : Graph :=
  (newGraph.addEdge "public" "B" "public" "A"
      DependencyType.ForeignKey "fk1" "NO ACTION").addEdge
      "public" "A" "public" "B" DependencyType.ForeignKey "fk2" "NO ACTION"

/-- A two-node acyclic graph with the single edge A→B. -/
def gDag : Graph :=
  newGraph.addEdge "public" "A" "public" "B" DependencyType.ForeignKey "fk1" "NO ACTION"

/-- Placeholder for `g.Nodes[id]` reads on ids the source assumes to be
present (a missing id would be a nil dereference in Go). -/
def dfltNode : Node :=
  { id := "", schema := "", name := "", type := NodeType.Table,
    size := "", rowCount := 0, indexes := [] }

/-- `g.Nodes[id]` reads in the impact command. -/
def Graph.nodeAt (g : Graph) (id : String) : Node :=
  (alookup g.nodes id).getD dfltNode

/-- The reverse-adjacency map of the impact command
(`reverseEdges[edge.TargetID] = append(reverseEdges[edge.TargetID], edge)`). -/
def Graph.reverseEdges (g : Graph) : List (String × List Edge) :=
  g.edges.foldl (fun m p => p.2.foldl (fun m e => adjAppend m e.targetID e) m) []

/-- The `len(idx) >= len(fkCols)` plus positional first-K comparison of the
index-coverage checks: `fkCols` is an exact ordered prefix of `idx`. -/
def prefixMatch : List String → List String → Bool
  | [], _ => true
  | _ :: _, [] => false
  | c :: cs, i :: is => c = i && prefixMatch cs is

/-- One index of the source table covers the foreign-key columns: the index
is at least as long and its first entries match positionally. -/
def idxCovers (idx fkCols : List String) : Bool :=
  if idx.length < fkCols.length then false else prefixMatch fkCols idx

/-- Some index of the node covers the foreign-key columns (the
first-match-breaks loop of the source). -/
def hasCoveringIndex (indexes : List (List String)) (fkCols : List String) : Bool :=
  indexes.any (fun idx => idxCovers idx fkCols)

/-- The structural warnings synthesized during impact-tree expansion,
modelling the formatted warning strings of the impact command:
`cascade parent child rowNote` stands for the `[High] Cascade Delete:
Deleting PARENT will recursively delete objects in CHILD` string, with
`rowNote = some n` for the appended `(~n rows potentially locked/deleted)`
note; `viewCoupling src levels` for the `[Med] View Coupling: SRC is
LEVELS levels removed but will break on schema change` string; and
`missingIndex src cols` for the `[Med] Missing Index: SRC(COLS) is not
indexed` string. -/
inductive Warning where
  | cascade (parent child : String) (rowNote : Option Int)
  | viewCoupling (src : String) (levels : Nat)
  | missingIndex (src cols : String)
deriving DecidableEq, Repr

def Warning.isCascade : Warning → Bool
  | .cascade _ _ _ => true
  | _ => false

def Warning.isViewCoupling : Warning → Bool
  | .viewCoupling _ _ => true
  | _ => false

/-- The three warning checks run when the impact tree accepts the arrival
edge `edge` into the not-yet-visited dependent `edge.SourceID` while
expanding node `id` at level `level` (the `// Detect Warnings` block of the
impact command), in source order: cascade, view coupling, missing index.
The cascade row-count note uses the row count of the node being expanded
(`node.RowCount`, the tree parent). -/
def stepWarnings (g : Graph) (id : String) (level : Nat) (edge : Edge) : List Warning :=
  let node := g.nodeAt id
  let src := edge.sourceID
  (if edge.deleteRule = "CASCADE" then
    [Warning.cascade id src (if node.rowCount > 1000 then some node.rowCount else none)]
   else []) ++
  (if edge.type = DependencyType.ViewDepends ∧ 2 ≤ level then
    [Warning.viewCoupling src level]
   else []) ++
  (if edge.type = DependencyType.ForeignKey then
    match alookup edge.metaData "fk_columns" with
    | some cols =>
        if cols ≠ "" then
          if hasCoveringIndex (g.nodeAt src).indexes (cols.splitOn ",") then []
          else [Warning.missingIndex src cols]
        else []
    | none => []
   else [])

/-- A node of the impact tree built by the impact command. -/
structure TreeNode where
  id : String
  type : NodeType
  size : String
  rowCount : Int
  edgeMeta : Option Edge
  children : List TreeNode
  level : Nat
deriving Repr

/-- The `for _, edge := range reverseEdges[id]` loop of `buildTree`:
dependents already visited are skipped, a fresh dependent is expanded by
`rec` (which threads the visited set) at the child level, and the three
warning checks run after the child returns. -/
def buildChildren
    (rec : String → List String → List Warning →
      Option (TreeNode × List String × List Warning))
    (g : Graph) (id : String) (level : Nat) :
    List Edge → List String → List Warning →
    Option (List TreeNode × List String × List Warning)
  | [], visited, warnings => some ([], visited, warnings)
  | edge :: rest, visited, warnings =>
      if edge.sourceID ∈ visited then
        buildChildren rec g id level rest visited warnings
      else
        match rec edge.sourceID visited warnings with
        | none => none
        | some (child, visited1, warnings1) =>
            match buildChildren rec g id level rest visited1
                (warnings1 ++ stepWarnings g id level edge) with
            | none => none
            | some (children, visited2, warnings3) =>
                some ({ child with edgeMeta := some edge } :: children, visited2, warnings3)

/-- `buildTree` of the impact command: expand `id` at `level`, marking it
visited first, then recurse into every not-yet-visited dependent found in
the reverse index, accumulating warnings in discovery order.  The fuel
bounds the recursion depth, which in Go is bounded because every recursive
call is made on a dependent that was unvisited and is marked visited on
entry. -/
def buildTree (g : Graph) (rev : List (String × List Edge)) :
    Nat → String → Nat → List String → List Warning →
    Option (TreeNode × List String × List Warning)
  | 0, _, _, _, _ => none
  | fuel + 1, id, level, visited, warnings =>
      let nd := g.nodeAt id
      match buildChildren (fun s v w => buildTree g rev fuel s (level + 1) v w)
          g id level ((alookup rev id).getD []) (id :: visited) warnings with
      | none => none
      | some (children, visited2, warnings2) =>
          some ({ id := id, type := nd.type, size := nd.size, rowCount := nd.rowCount,
                  edgeMeta := none, children := children, level := level },
                visited2, warnings2)

/-- One accepted expansion step of the impact tree: while expanding
`parent` at `level`, a not-yet-visited dependent was reached over the
arrival edge `edge` (whose source is the dependent). -/
structure ExpandEvent where
  parent : String
  level : Nat
  edge : Edge
deriving DecidableEq, Repr

/-- The warnings contributed by one expansion event. -/
def eventWarnings (g : Graph) (e : ExpandEvent) : List Warning :=
  stepWarnings g e.parent e.level e.edge

/-- The edge-loop of `buildTree`, recording expansion events instead of
building the tree: the events of the child subtree come first (their
warnings are emitted before the arrival edge's own checks run), then the
arrival event, then the remaining siblings. -/
def traceChildren
    (rec : String → List String → Option (List ExpandEvent × List String))
    (id : String) (level : Nat) :
    List Edge → List String → Option (List ExpandEvent × List String)
  | [], visited => some ([], visited)
  | edge :: rest, visited =>
      if edge.sourceID ∈ visited then
        traceChildren rec id level rest visited
      else
        match rec edge.sourceID visited with
        | none => none
        | some (evs, visited1) =>
            match traceChildren rec id level rest visited1 with
            | none => none
            | some (evs2, visited2) =>
                some (evs ++ ⟨id, level, edge⟩ :: evs2, visited2)

/-- The expansion-event trace of `buildTree`: same traversal, same visited
set, recording one event per accepted arrival edge. -/
def impactTrace (g : Graph) (rev : List (String × List Edge)) :
    Nat → String → Nat → List String → Option (List ExpandEvent × List String)
  | 0, _, _, _ => none
  | fuel + 1, id, level, visited =>
      traceChildren (fun s v => impactTrace g rev fuel s (level + 1) v)
        id level ((alookup rev id).getD []) (id :: visited)

/-- The warnings of the impact command for a root id, with the fuel chosen
sufficiently large (every recursive call consumes a distinct edge source). -/
def Graph.impactWarnings (g : Graph) (rootID : String) : Option (List Warning) :=
  (buildTree g g.reverseEdges (g.edgeCount + 2) rootID 0 [] []).map (fun r => r.2.2)

/-- The expansion events of the impact command for a root id. -/
def Graph.impactEvents (g : Graph) (rootID : String) : Option (List ExpandEvent) :=
  (impactTrace g g.reverseEdges (g.edgeCount + 2) rootID 0 []).map (fun r => r.1)

/-- The cascade warning an expansion event produces when its arrival
edge's delete rule is `CASCADE`. -/
def cascadeOf (g : Graph) (e : ExpandEvent) : Warning :=
  Warning.cascade e.parent e.edge.sourceID
    (if (g.nodeAt e.parent).rowCount > 1000 then some (g.nodeAt e.parent).rowCount else none)

/-- A table T with a `VIEW_DEPENDS` arrival edge from V whose delete rule
is `CASCADE` (the graph API accepts a delete rule on any edge type). -/
def gC5 : Graph :=
  ((newGraph.addNode "public" "T" NodeType.Table "" 0).addNode
      "public" "V" NodeType.View "" 0).addEdge
      "public" "V" "public" "T" DependencyType.ViewDepends "dep" "CASCADE"

/-- A table T with a cascading foreign key from C, where C (the child)
has 2000 rows but T (the parent) has none. -/
def gC5b : Graph :=
  ((newGraph.addNode "public" "T" NodeType.Table "" 0).addNode
      "public" "C" NodeType.Table "" 2000).addEdge
      "public" "C" "public" "T" DependencyType.ForeignKey "fk" "CASCADE"

/-- T ← A (foreign key) ← V (view dependency): the view V is reached at
depth 2 when tracing the impact of T. -/
def gC6 : Graph :=
  ((newGraph.addEdge "public" "A" "public" "T"
      DependencyType.ForeignKey "fk" "NO ACTION").addEdge
      "public" "V" "public" "A" DependencyType.ViewDepends "dep" "NO ACTION")

/-- T ← A ← B (foreign keys) ← V (view dependency): the view V is reached
at depth 3 when tracing the impact of T. -/
def gC6b : Graph :=
  (((newGraph.addEdge "public" "A" "public" "T"
      DependencyType.ForeignKey "fk1" "NO ACTION").addEdge
      "public" "B" "public" "A" DependencyType.ForeignKey "fk2" "NO ACTION").addEdge
      "public" "V" "public" "B" DependencyType.ViewDepends "dep" "NO ACTION")

/-- `IndexIssues` from `trace.go`: result of the index hygiene check. -/
structure IndexIssues where
  missingFKIndexes : List String
  totalFKs : Nat
  indexedFKs : Nat
deriving DecidableEq, Repr

/-- All edges of the adjacency map, in iteration order. -/
def Graph.allEdges (g : Graph) : List Edge :=
  g.edges.bind (fun p => p.2)

/-- The `fk_columns` metadata of an edge when present and non-empty
(the `!ok || fkColsStr == ""` guard of `CheckIndexCoverage`). -/
def fkUsableMeta (e : Edge) : Option String :=
  match alookup e.metaData "fk_columns" with
  | none => none
  | some s => if s = "" then none else some s

/-- The body of the edge loop of `CheckIndexCoverage` for a single edge:
count every ForeignKey edge, skip it when its source node or its usable
`fk_columns` metadata is missing, and otherwise classify it as indexed or
record it in the missing list in the `Table (cols) -> Target` format. -/
def checkFKEdge (g : Graph) (issues : IndexIssues) (edge : Edge) : IndexIssues :=
  if edge.type = DependencyType.ForeignKey then
    let issues1 := { issues with totalFKs := issues.totalFKs + 1 }
    match alookup g.nodes edge.sourceID with
    | none => issues1
    | some srcNode =>
        match fkUsableMeta edge with
        | none => issues1
        | some fkColsStr =>
            if hasCoveringIndex srcNode.indexes (fkColsStr.splitOn ",") then
              { issues1 with indexedFKs := issues1.indexedFKs + 1 }
            else
              { issues1 with missingFKIndexes := issues1.missingFKIndexes ++
                  [edge.sourceID ++ " (" ++ fkColsStr ++ ") -> " ++ edge.targetID] }
  else issues

/-- `CheckIndexCoverage` from `trace.go`. -/
def Graph.checkIndexCoverage (g : Graph) : IndexIssues :=
  g.edges.foldl (fun issues p => p.2.foldl (checkFKEdge g) issues)
    { missingFKIndexes := [], totalFKs := 0, indexedFKs := 0 }

/-- Specification of index coverage: the foreign-key columns are an exact
ordered prefix of the index columns (index at least as long, first K
entries equal positionally). -/
def CoversSpec (idx fkCols : List String) : Prop :=
  fkCols.length ≤ idx.length ∧ idx.take fkCols.length = fkCols

/-- A ForeignKey edge examined by the check: source node present and
usable `fk_columns` metadata. -/
def fkExamined (g : Graph) (e : Edge) : Bool :=
  decide (e.type = DependencyType.ForeignKey) &&
  (alookup g.nodes e.sourceID).isSome && (fkUsableMeta e).isSome

/-- A ForeignKey edge counted as covered by the check. -/
def fkCovered (g : Graph) (e : Edge) : Bool :=
  fkExamined g e &&
  hasCoveringIndex (g.nodeAt e.sourceID).indexes (((fkUsableMeta e).getD "").splitOn ",")

/-- A ForeignKey edge recorded in the missing list by the check. -/
def fkMissing (g : Graph) (e : Edge) : Bool :=
  fkExamined g e &&
  !hasCoveringIndex (g.nodeAt e.sourceID).indexes (((fkUsableMeta e).getD "").splitOn ",")

/-- The `Table (cols) -> Target` line of the missing list. -/
def missingEntry (e : Edge) : String :=
  e.sourceID ++ " (" ++ (fkUsableMeta e).getD "" ++ ") -> " ++ e.targetID

/-- A graph with one two-column foreign key A→B whose source carries a
covering index, and one foreign key A→C without one, built directly (edge
metadata is attached by the schema adapter in the original program). -/
def gC7 : Graph :=
  { nodes :=
      [("s.A", { id := "s.A", schema := "s", name := "A", type := NodeType.Table,
                 size := "", rowCount := 0, indexes := [["x"], ["a", "b", "c"]] }),
       ("s.B", { id := "s.B", schema := "s", name := "B", type := NodeType.Table,
                 size := "", rowCount := 0, indexes := [] }),
       ("s.C", { id := "s.C", schema := "s", name := "C", type := NodeType.Table,
                 size := "", rowCount := 0, indexes := [] })],
    edges :=
      [("s.A", [{ sourceID := "s.A", targetID := "s.B",
                  type := DependencyType.ForeignKey, constraintName := "fk1",
                  deleteRule := "NO ACTION", metaData := [("fk_columns", "a,b")] },
                { sourceID := "s.A", targetID := "s.C",
                  type := DependencyType.ForeignKey, constraintName := "fk2",
                  deleteRule := "NO ACTION", metaData := [("fk_columns", "q")] }])] }

/-- The mutable state of `CheckCycles` in `trace.go`: the index counter,
the explicit stack (modelled with its head as the top of the Go slice),
the `indices` and `lowLink` maps, the set of ids marked true in the
`onStack` map, and the accumulated SCC list. -/
structure TarjanSt where
  index : Nat
  stack : List String
  indices : List (String × Nat)
  lowLink : List (String × Nat)
  onStack : List String
  sccs : List (List String)
deriving Repr

/-- `indices[w]` as read by the Go code (zero when absent). -/
def TarjanSt.num (st : TarjanSt) (w : String) : Nat :=
  (alookup st.indices w).getD 0

/-- `lowLink[w]` as read by the Go code (zero when absent). -/
def TarjanSt.low (st : TarjanSt) (w : String) : Nat :=
  (alookup st.lowLink w).getD 0

/-- The pop loop generating an SCC: pop stack entries down to and
including `v`; returns the popped entries in pop order and the remaining
stack. -/
def popUntil (v : String) : List String → List String × List String
  | [] => ([], [])
  | w :: rest =>
      if w = v then ([w], rest)
      else
        let p := popUntil v rest
        (w :: p.1, p.2)

/-- `lowLink[v] = n`. -/
def setLow (st : TarjanSt) (v : String) (n : Nat) : TarjanSt :=
  { st with lowLink := aupdate st.lowLink v (fun _ => n) }

/-- The `for _, wEdge := range edges` neighbour loop of `strongconnect`:
recurse on unvisited targets and take the minimum with the child's
low-link, or take the minimum with the index of targets still on the
stack. -/
def scLoop (rec : String → TarjanSt → Option TarjanSt) (g : Graph) (v : String) :
    List String → TarjanSt → Option TarjanSt
  | [], st => some st
  | w :: ws, st =>
      match alookup st.indices w with
      | none =>
          match rec w st with
          | none => none
          | some st1 =>
              scLoop rec g v ws
                (if st1.low w < st1.low v then setLow st1 v (st1.low w) else st1)
      | some iw =>
          if w ∈ st.onStack then
            scLoop rec g v ws (if iw < st.low v then setLow st v iw else st)
          else scLoop rec g v ws st

/-- The entry block of `strongconnect`: assign the index and initial
low-link of `v`, advance the counter, push `v` and mark it on-stack. -/
def pushNode (v : String) (st : TarjanSt) : TarjanSt :=
  { index := st.index + 1,
    stack := v :: st.stack,
    indices := (v, st.index) :: st.indices,
    lowLink := (v, st.index) :: st.lowLink,
    onStack := v :: st.onStack,
    sccs := st.sccs }

/-- The root block of `strongconnect`: pop the SCC of `v` off the stack
and record it when it is a genuine cycle (size above one, or a self-loop
on its single node). -/
def popState (g : Graph) (v : String) (st : TarjanSt) : TarjanSt :=
  let p := popUntil v st.stack
  let isCycle := decide (1 < p.1.length) || decide (v ∈ g.succs v)
  { st with
    stack := p.2,
    onStack := st.onStack.filter (fun x => decide (x ∉ p.1)),
    sccs := if isCycle then st.sccs ++ [p.1] else st.sccs }

/-- `strongconnect` of `CheckCycles`: assign `v` its index and initial
low-link, push it, process its neighbours, and if `v` is a root
(`lowLink[v] == indices[v]`) pop its SCC, record it when it is a genuine
cycle (more than one node, or a single node with a self-loop edge).  The
fuel bounds the recursion depth; every recursive call is made on a node
without an index that immediately receives one, so the depth is bounded by
the number of nodes and the fuel chosen by `checkCycles` is sufficient. -/
def strongconnect (g : Graph) : Nat → String → TarjanSt → Option TarjanSt
  | 0, _, _ => none
  | fuel + 1, v, st =>
      match scLoop (fun w s => strongconnect g fuel w s) g v (g.succs v) (pushNode v st) with
      | none => none
      | some st1 =>
          if st1.low v = st1.num v then some (popState g v st1)
          else some st1

/-- Fuel for `strongconnect` (see its doc comment). -/
def tarjanFuel (g : Graph) : Nat := g.nodes.length + g.edgeCount + 2

/-- The `for nodeID := range g.Nodes` loop of `CheckCycles`: start a fresh
DFS from every node that has no index yet. -/
def tarjanFold (g : Graph) : List (String × Node) → TarjanSt → Option TarjanSt
  | [], st => some st
  | (id, _) :: rest, st =>
      match alookup st.indices id with
      | some _ => tarjanFold g rest st
      | none =>
          match strongconnect g (tarjanFuel g) id st with
          | none => none
          | some st1 => tarjanFold g rest st1

/-- `CheckCycles` from `trace.go`: Tarjan's strongly connected components,
filtered to the genuine cycles. -/
def Graph.checkCycles (g : Graph) : Option (List (List String)) :=
  (tarjanFold g g.nodes
    { index := 0, stack := [], indices := [], lowLink := [], onStack := [], sccs := [] }).map
    (fun st => st.sccs)

/-- Reachability along dependency edges. -/
def Reach (g : Graph) (a b : String) : Prop :=
  Relation.ReflTransGen (stepRel g) a b

/-- `a` and `b` lie in the same strongly connected component: each reaches
the other. -/
def InSCC (g : Graph) (a b : String) : Prop :=
  Reach g a b ∧ Reach g b a

/-- `w` has been assigned an index. -/
def Ix (st : TarjanSt) (w : String) : Prop :=
  (alookup st.indices w).isSome

instance (st : TarjanSt) (w : String) : Decidable (Ix st w) :=
  inferInstanceAs (Decidable ((alookup st.indices w).isSome = true))

/-- The invariant of Tarjan's algorithm, relative to the list `grays` of
nodes whose `strongconnect` call is still active, innermost first.
"Finished" nodes are indexed nodes that are not gray; "popped" nodes are
indexed nodes no longer on the stack. -/
structure WF (g : Graph) (grays : List String) (st : TarjanSt) : Prop where
  onstack_eq : st.onStack = st.stack
  stack_ix : ∀ w ∈ st.stack, Ix st w
  stack_sorted : st.stack.Pairwise (fun a b => st.num b < st.num a)
  ix_keys : ∀ w, Ix st w → w ∈ g.nodeKeys
  low_dom : ∀ w, (alookup st.lowLink w).isSome ↔ Ix st w
  num_lt_index : ∀ w, Ix st w → st.num w < st.index
  num_inj : ∀ w1 w2, Ix st w1 → Ix st w2 → st.num w1 = st.num w2 → w1 = w2
  grays_sub : grays.Sublist st.stack
  grays_chain : grays.Chain' (fun a b => stepRel g b a)
  stack_reach_gray : ∀ w ∈ st.stack, ∃ x ∈ grays, st.num x ≤ st.num w ∧ Reach g w x ∧
    ∀ y ∈ grays, st.num y ≤ st.num w → st.num y ≤ st.num x
  gray_reach_ix : ∀ x ∈ grays, ∀ w, Ix st w → st.num x ≤ st.num w → Reach g x w
  fin_succ_ix : ∀ w, Ix st w → w ∉ grays → ∀ z, stepRel g w z → Ix st z
  popped_closed : ∀ w, Ix st w → w ∉ st.stack → ∀ z, stepRel g w z →
    Ix st z ∧ z ∉ st.stack
  low_le_num : ∀ w, Ix st w → st.low w ≤ st.num w
  stack_low_witness : ∀ w ∈ st.stack, ∃ u ∈ st.stack, Reach g w u ∧ st.num u = st.low w
  fin_edge_coh : ∀ w, Ix st w → w ∉ grays → ∀ z, stepRel g w z →
    (Ix st z ∧ z ∉ st.stack) ∨ st.low w ≤ st.num z ∨
    (Ix st z ∧ z ∉ grays ∧ st.low w ≤ st.low z)
  sccs_quality : ∀ S ∈ st.sccs, ∃ r, r ∈ S ∧ S.Nodup ∧
    (∀ w, w ∈ S ↔ InSCC g r w) ∧ (1 < S.length ∨ stepRel g r r)
  popped_rec : ∀ w, Ix st w → w ∉ st.stack →
    (∃ S ∈ st.sccs, w ∈ S) ∨ (¬ stepRel g w w ∧ ∀ z, InSCC g w z → z = w)

/-- Every finished node on the stack has a gray witness of largest index
not exceeding its own whose low-link already absorbed its low-link (the
aggregation that the parent's `lowLink[v] = min(lowLink[v], lowLink[w])`
performs when a call returns). -/
def Absorb (grays : List String) (st : TarjanSt) : Prop :=
  ∀ w ∈ st.stack, w ∉ grays → ∃ x ∈ grays, st.num x ≤ st.num w ∧
    st.low x ≤ st.low w ∧ ∀ y ∈ grays, st.num y ≤ st.num w → st.num y ≤ st.num x

/-- The number of graph nodes still lacking an index (the termination
measure of the DFS). -/
def unIx (g : Graph) (st : TarjanSt) : Nat :=
  (g.nodeKeys.filter (fun k => decide (¬ Ix st k))).length

/-- Post-condition of a `strongconnect` call on `v` made with outer gray
list `gs` from state `st`, ending in state `st'`: indexed nodes are
preserved, `v` receives the entry index, fresh indices lie above it, the
stack grows by fresh nodes only, recorded components only accumulate, the
unindexed count drops, and the call exits either as a root (`v` popped,
invariant restored for `gs`) or as a non-root (`v` still on the stack and
absorbed once the caller takes the low-link minimum). -/
structure SCPost (g : Graph) (gs : List String) (st st' : TarjanSt) (v : String) : Prop where
  pres : ∀ w, Ix st w → Ix st' w ∧ st'.num w = st.num w ∧ st'.low w = st.low w
  ixv : Ix st' v
  numv : st'.num v = st.index
  idx : st.index < st'.index
  fresh : ∀ w, Ix st' w → ¬ Ix st w → st.index ≤ st'.num w
  stacksh : ∃ ext, st'.stack = ext ++ st.stack ∧ ∀ z ∈ ext, ¬ Ix st z
  sccsext : ∃ gr, st'.sccs = st.sccs ++ gr
  unix : unIx g st' < unIx g st
  wf : WF g gs st'
  branch : (v ∉ st'.stack ∧ st'.low v = st.index ∧ Absorb gs st')
         ∨ (v ∈ st'.stack ∧ Absorb (v :: gs) st')

/-- Invariant carried through the neighbour loop of `strongconnect` on
`v`: preservation of old indices, monotone decrease of the low-link of
`v`, the structural growth facts, the invariant itself, and the edge
coherence of every processed successor. -/
structure LoopPost (g : Graph) (gs : List String) (v : String) (ws : List String)
    (st st' : TarjanSt) : Prop where
  pres : ∀ w, Ix st w → Ix st' w ∧ st'.num w = st.num w ∧ (w ≠ v → st'.low w = st.low w)
  lowv : st'.low v ≤ st.low v
  idx : st.index ≤ st'.index
  fresh : ∀ w, Ix st' w → ¬ Ix st w → st.index ≤ st'.num w
  stacksh : ∃ ext, st'.stack = ext ++ st.stack ∧ ∀ z ∈ ext, ¬ Ix st z
  sccsext : ∃ gr, st'.sccs = st.sccs ++ gr
  unix : unIx g st' ≤ unIx g st
  wf : WF g (v :: gs) st'
  absorb : Absorb (v :: gs) st'
  coh : ∀ z ∈ ws, Ix st' z ∧ (z ∉ st'.stack ∨ st'.low v ≤ st'.num z ∨
    (z ∉ (v :: gs) ∧ st'.low v ≤ st'.low z))

/-- The triangle A→B, B→C, C→A of the specification. -/
def gTriangle : Graph :=
  ((newGraph.addEdge "public" "A" "public" "B"
      DependencyType.ForeignKey "fk1" "NO ACTION").addEdge
      "public" "B" "public" "C" DependencyType.ForeignKey "fk2" "NO ACTION").addEdge
      "public" "C" "public" "A" DependencyType.ForeignKey "fk3" "NO ACTION"

/-- A graph whose only edge is the self-loop A→A. -/
def gSelfLoop : Graph :=
  newGraph.addEdge "public" "A" "public" "A" DependencyType.ForeignKey "fk1" "NO ACTION"

/-- The graph of `TestGetDownstream` in `graph_test.go`: nodes A, B, C, D and
edges A→B, B→C, D→B. -/
def gDownTest : Graph :=
  ((((((newGraph.addNode "public" "A" NodeType.Table "" 0).addNode
      "public" "B" NodeType.Table "" 0).addNode
      "public" "C" NodeType.Table "" 0).addNode
      "public" "D" NodeType.Table "" 0).addEdge
      "public" "A" "public" "B" DependencyType.ForeignKey "fk_a_b" "NO ACTION").addEdge
      "public" "B" "public" "C" DependencyType.ForeignKey "fk_b_c" "NO ACTION").addEdge
      "public" "D" "public" "B" DependencyType.ForeignKey "fk_d_b" "NO ACTION"

/-- `d` is exactly the number of nodes on the longest directed path
starting at `n`: it bounds every path from `n` and is attained by one. -/
def DepthGood (g : Graph) (n : String) (d : Nat) : Prop :=
  (∀ p, ChainFrom g n p → p.length ≤ d) ∧ (∃ p, ChainFrom g n p ∧ p.length = d)

/-- Every entry of the memo table is the exact longest-path node count of
its node. -/
def MemoOK (g : Graph) (memo : List (String × Nat)) : Prop :=
  ∀ x d, alookup memo x = some d → DepthGood g x d

section Lemmas

lemma alookup_aupdate {α : Type} (m : List (String × α)) (k x : String) (f : α → α) :
    alookup (aupdate m k f) x = if k = x then (alookup m x).map f else alookup m x := by
  induction m with
  | nil => simp [alookup, aupdate]
  | cons p rest ih =>
      obtain ⟨k', v⟩ := p
      by_cases hk : k' = k
      · subst hk
        by_cases hx : k' = x
        · subst hx
          simp [alookup, aupdate]
        · simp [alookup, aupdate, hx]
      · by_cases hx : k' = x
        · subst hx
          have hkx : k ≠ k' := fun h => hk h.symm
          simp [alookup, aupdate, hk, hkx]
        · simp [alookup, aupdate, hk, hx, ih]

lemma aupdate_id {α : Type} (m : List (String × α)) (k : String) (f : α → α)
    (hf : ∀ v, f v = v) : aupdate m k f = m := by
  induction m with
  | nil => rfl
  | cons p rest ih =>
      obtain ⟨k', v⟩ := p
      by_cases hk : k' = k
      · simp [aupdate, hk, hf]
      · simp [aupdate, hk, ih]

lemma alookup_append_left {α : Type} {m1 : List (String × α)} {x : String} {v : α}
    (m2 : List (String × α)) (h : alookup m1 x = some v) :
    alookup (m1 ++ m2) x = some v := by
  induction m1 with
  | nil => simp [alookup] at h
  | cons p rest ih =>
      obtain ⟨k, w⟩ := p
      by_cases hk : k = x
      · simp [alookup, hk] at h ⊢
        exact h
      · simp [alookup, hk] at h ⊢
        exact ih h

lemma alookup_append_right {α : Type} {m1 : List (String × α)} {x : String}
    (m2 : List (String × α)) (h : alookup m1 x = none) :
    alookup (m1 ++ m2) x = alookup m2 x := by
  induction m1 with
  | nil => rfl
  | cons p rest ih =>
      obtain ⟨k, w⟩ := p
      by_cases hk : k = x
      · simp [alookup, hk] at h
      · simp [alookup, hk] at h ⊢
        exact ih h

/-- `backfill` never changes schema, name, type or indexes, and the final
size and row count are drawn from the old node or the new arguments. -/
lemma backfill_fields (n : Node) (size : String) (rc : Int) :
    (backfill n size rc).schema = n.schema ∧
    (backfill n size rc).name = n.name ∧
    (backfill n size rc).type = n.type ∧
    (backfill n size rc).indexes = n.indexes ∧
    (backfill n size rc).id = n.id ∧
    ((backfill n size rc).size = n.size ∨ (backfill n size rc).size = size) ∧
    ((backfill n size rc).rowCount = n.rowCount ∨ (backfill n size rc).rowCount = rc) := by
  refine ⟨rfl, rfl, rfl, rfl, rfl, ?_, ?_⟩ <;> · simp only [backfill]; split <;> simp

lemma backfill_blank (n : Node) : backfill n "" 0 = n := by
  simp [backfill]

/-- Looking up the added id after `addNode`. -/
lemma addNode_lookup_self (g : Graph) (schema name : String) (ty : NodeType)
    (size : String) (rc : Int) :
    alookup (g.addNode schema name ty size rc).nodes (schema ++ "." ++ name) =
      match alookup g.nodes (schema ++ "." ++ name) with
      | none => some { id := schema ++ "." ++ name, schema := schema, name := name,
                       type := ty, size := size, rowCount := rc, indexes := [] }
      | some n => some (backfill n size rc) := by
  unfold Graph.addNode
  cases h : alookup g.nodes (schema ++ "." ++ name) with
  | none =>
      simp only [h]
      rw [alookup_append_right _ h]
      simp [alookup]
  | some n =>
      simp only [h]
      rw [alookup_aupdate, if_pos rfl, h]
      rfl

/-- `addNode` does not change the binding of any other id. -/
lemma addNode_lookup_other (g : Graph) (schema name : String) (ty : NodeType)
    (size : String) (rc : Int) (x : String) (hx : schema ++ "." ++ name ≠ x) :
    alookup (g.addNode schema name ty size rc).nodes x = alookup g.nodes x := by
  unfold Graph.addNode
  cases h : alookup g.nodes (schema ++ "." ++ name) with
  | none =>
      simp only [h]
      cases h2 : alookup g.nodes x with
      | none =>
          rw [alookup_append_right _ h2]
          simp [alookup, hx]
      | some w =>
          exact alookup_append_left _ h2
  | some n =>
      simp only [h]
      rw [alookup_aupdate, if_neg hx]

lemma ensureNode_preserves {g : Graph} {x : String} {v : Node} (s n : String)
    (h : alookup g.nodes x = some v) :
    alookup (g.ensureNode s n).nodes x = some v := by
  unfold Graph.ensureNode
  cases hid : alookup g.nodes (s ++ "." ++ n) with
  | some _ => exact h
  | none =>
      have hne : s ++ "." ++ n ≠ x := by
        intro he
        rw [he, h] at hid
        exact Option.noConfusion hid
      rw [addNode_lookup_other _ _ _ _ _ _ _ hne]
      exact h

lemma ensureNode_absent {g : Graph} (s n : String)
    (h : alookup g.nodes (s ++ "." ++ n) = none) :
    alookup (g.ensureNode s n).nodes (s ++ "." ++ n) =
      some { id := s ++ "." ++ n, schema := s, name := n, type := NodeType.Table,
             size := "", rowCount := 0, indexes := [] } := by
  unfold Graph.ensureNode
  rw [h]
  rw [addNode_lookup_self, h]

lemma ensureNode_isSome_self (g : Graph) (s n : String) :
    (alookup (g.ensureNode s n).nodes (s ++ "." ++ n)).isSome := by
  cases h : alookup g.nodes (s ++ "." ++ n) with
  | none => rw [ensureNode_absent s n h]; rfl
  | some v => rw [ensureNode_preserves s n h]; rfl

/-- `ensureNode` either leaves an absent binding absent or creates exactly
the placeholder `Table` node. -/
lemma ensureNode_of_absent {g : Graph} {x : String} (s n : String)
    (h : alookup g.nodes x = none) :
    alookup (g.ensureNode s n).nodes x = none ∨
    alookup (g.ensureNode s n).nodes x =
      some { id := s ++ "." ++ n, schema := s, name := n, type := NodeType.Table,
             size := "", rowCount := 0, indexes := [] } := by
  unfold Graph.ensureNode
  cases hid : alookup g.nodes (s ++ "." ++ n) with
  | some _ => exact Or.inl h
  | none =>
      by_cases hx : s ++ "." ++ n = x
      · subst hx
        rw [addNode_lookup_self, hid]
        exact Or.inr rfl
      · rw [addNode_lookup_other _ _ _ _ _ _ _ hx]
        exact Or.inl h

lemma bfsVisit_inv {x : String} {st : BfsSt} (dep : String)
    (h1 : x ∈ st.visited) (h2 : x ∉ st.impacted) :
    x ∈ (bfsVisit st dep).visited ∧ x ∉ (bfsVisit st dep).impacted := by
  unfold bfsVisit
  split
  · exact ⟨h1, h2⟩
  · rename_i hdep
    refine ⟨List.mem_append_left _ h1, ?_⟩
    intro hx
    rcases List.mem_append.mp hx with hx | hx
    · exact h2 hx
    · rw [List.mem_singleton.mp hx] at h1
      exact hdep h1

lemma bfsFold_inv {x : String} :
    ∀ (deps : List String) (st : BfsSt), x ∈ st.visited → x ∉ st.impacted →
      x ∈ (deps.foldl bfsVisit st).visited ∧ x ∉ (deps.foldl bfsVisit st).impacted := by
  intro deps
  induction deps with
  | nil => intro st h1 h2; exact ⟨h1, h2⟩
  | cons d rest ih =>
      intro st h1 h2
      have h := bfsVisit_inv d h1 h2
      exact ih _ h.1 h.2

lemma bfsLoop_not_mem (rev : List (String × List String)) {x : String} :
    ∀ (fuel : Nat) (st : BfsSt), x ∈ st.visited → x ∉ st.impacted →
      x ∉ bfsLoop rev fuel st := by
  intro fuel
  induction fuel with
  | zero => intro st h1 h2; exact h2
  | succ f ih =>
      intro st h1 h2
      cases hq : st.queue with
      | nil => simpa [bfsLoop, hq] using h2
      | cons current rest =>
          simp only [bfsLoop, hq]
          have h := bfsFold_inv ((alookup rev current).getD []) { st with queue := rest } h1 h2
          exact ih _ h.1 h.2

lemma alookup_cons_self {α : Type} {m : List (String × α)} {k : String} {v : α} :
    alookup ((k, v) :: m) k = some v := by
  simp [alookup]

lemma alookup_cons_ne {α : Type} {m : List (String × α)} {k x : String} {v : α}
    (h : k ≠ x) : alookup ((k, v) :: m) x = alookup m x := by
  simp [alookup, h]

lemma alookup_mem {α : Type} {m : List (String × α)} {k : String} {v : α}
    (h : alookup m k = some v) : (k, v) ∈ m := by
  induction m with
  | nil => simp [alookup] at h
  | cons p rest ih =>
      obtain ⟨k', w⟩ := p
      by_cases hk : k' = k
      · subst hk
        simp [alookup] at h
        subst h
        exact List.mem_cons_self _ _
      · simp [alookup, hk] at h
        exact List.mem_cons_of_mem _ (ih h)

lemma closed_succs {g : Graph} (hC : Closed g) {a w : String} (hw : w ∈ g.succs a) :
    w ∈ g.nodeKeys := by
  unfold Graph.succs at hw
  rcases List.mem_map.mp hw with ⟨e, he, rfl⟩
  cases hl : alookup g.edges a with
  | none => rw [hl] at he; simp at he
  | some es =>
      rw [hl] at he
      exact hC (a, es) (alookup_mem hl) e he

lemma chainFrom_single (g : Graph) (n : String) : ChainFrom g n [n] :=
  ⟨List.chain'_singleton n, rfl⟩

lemma chainFrom_cases {g : Graph} {n : String} {p : List String} (h : ChainFrom g n p) :
    p = [n] ∨ ∃ w q, p = n :: q ∧ ChainFrom g w q ∧ stepRel g n w := by
  obtain ⟨hc, hh⟩ := h
  cases p with
  | nil => simp at hh
  | cons a q =>
      have ha : a = n := by simpa using hh
      subst ha
      cases q with
      | nil => exact Or.inl rfl
      | cons b q' =>
          rw [List.chain'_cons] at hc
          exact Or.inr ⟨b, b :: q', rfl, ⟨hc.2, rfl⟩, hc.1⟩

lemma chainFrom_cons_of_step {g : Graph} {n w : String} {q : List String}
    (hs : stepRel g n w) (h : ChainFrom g w q) : ChainFrom g n (n :: q) := by
  obtain ⟨hc, hh⟩ := h
  refine ⟨?_, rfl⟩
  cases q with
  | nil => simp at hh
  | cons b q' =>
      have hb : b = w := by simpa using hh
      subst hb
      exact List.chain'_cons.mpr ⟨hs, hc⟩

lemma DepthGood.one_le {g : Graph} {n : String} {d : Nat} (h : DepthGood g n d) :
    1 ≤ d := by
  have := h.1 [n] (chainFrom_single g n)
  simpa using this

/-- Extending the reversed path stack by a successor of its newest entry
keeps it a directed path. -/
lemma stack_chain_snoc {g : Graph} {id w : String} {stack : List String}
    (hchain : ((id :: stack).reverse).Chain' (stepRel g)) (hs : stepRel g id w) :
    ((w :: id :: stack).reverse).Chain' (stepRel g) := by
  rw [List.reverse_cons]
  refine List.chain'_append.mpr ⟨hchain, List.chain'_singleton w, ?_⟩
  intro x hx y hy
  rw [List.getLast?_reverse] at hx
  simp only [List.head?_cons, Option.mem_def, Option.some.injEq] at hx hy
  rw [← hx, ← hy]
  exact hs

/-- In an acyclic graph the path stack is duplicate-free. -/
lemma stack_nodup {g : Graph} (hA : Acyclic g) {id : String} {stack : List String}
    (hchain : ((id :: stack).reverse).Chain' (stepRel g)) : (id :: stack).Nodup :=
  List.nodup_reverse.mp (hA _ hchain)

/-- Main invariant of the memoized depth search on acyclic graphs: with a
correct memo table, enough fuel and a duplicate-free path stack forming a
directed path, `getDepth` returns exactly the longest-path node count and
only extends the memo table with correct entries; `getDepthList` returns
the maximum of the successors' counts. -/
lemma getDepth_dag (g : Graph) (hC : Closed g) (hA : Acyclic g) : ∀ fuel : Nat,
    (∀ id stack memo,
      ((id :: stack).reverse).Chain' (stepRel g) →
      (∀ x ∈ id :: stack, x ∈ g.nodeKeys) →
      g.nodeKeys.length + 1 ≤ fuel + stack.length →
      MemoOK g memo →
      ∃ d memo2, getDepth g fuel id stack memo = some (d, memo2) ∧ MemoOK g memo2 ∧
        (∀ x v, alookup memo x = some v → alookup memo2 x = some v) ∧
        alookup memo2 id = some d) ∧
    (∀ ws id stack memo,
      ((id :: stack).reverse).Chain' (stepRel g) →
      (∀ x ∈ id :: stack, x ∈ g.nodeKeys) →
      (∀ w ∈ ws, stepRel g id w) →
      g.nodeKeys.length ≤ fuel + stack.length →
      MemoOK g memo →
      ∃ m memo2,
        getDepthList (fun w m => getDepth g fuel w (id :: stack) m) ws memo =
          some (m, memo2) ∧
        MemoOK g memo2 ∧
        (∀ x v, alookup memo x = some v → alookup memo2 x = some v) ∧
        (∀ w ∈ ws, ∀ p, ChainFrom g w p → p.length ≤ m) ∧
        (m = 0 ∨ ∃ w ∈ ws, ∃ p, ChainFrom g w p ∧ p.length = m)) := by
  intro fuel
  induction fuel with
  | zero =>
      constructor
      · intro id stack memo hchain hmem hfuel _
        exfalso
        have hnd := stack_nodup hA hchain
        have hle : (id :: stack).length ≤ g.nodeKeys.length :=
          (hnd.subperm (fun x hx => hmem x hx)).length_le
        simp only [List.length_cons] at hle
        omega
      · intro ws id stack memo hchain hmem hws hfuel hmemo
        cases ws with
        | nil =>
            refine ⟨0, memo, by simp [getDepthList], hmemo, fun x v hv => hv, ?_, Or.inl rfl⟩
            intro w hw
            exact absurd hw (List.not_mem_nil w)
        | cons w ws' =>
            exfalso
            have hnd := stack_nodup hA hchain
            have hle : (id :: stack).length ≤ g.nodeKeys.length :=
              (hnd.subperm (fun x hx => hmem x hx)).length_le
            simp only [List.length_cons] at hle
            omega
  | succ f ih =>
      have P : ∀ id stack memo,
          ((id :: stack).reverse).Chain' (stepRel g) →
          (∀ x ∈ id :: stack, x ∈ g.nodeKeys) →
          g.nodeKeys.length + 1 ≤ (f + 1) + stack.length →
          MemoOK g memo →
          ∃ d memo2, getDepth g (f + 1) id stack memo = some (d, memo2) ∧ MemoOK g memo2 ∧
            (∀ x v, alookup memo x = some v → alookup memo2 x = some v) ∧
            alookup memo2 id = some d := by
        intro id stack memo hchain hmem hfuel hmemo
        cases hm : alookup memo id with
        | some d =>
            refine ⟨d, memo, ?_, hmemo, fun x v hv => hv, hm⟩
            simp only [getDepth, hm]
        | none =>
            have hnd := stack_nodup hA hchain
            have hid : id ∉ stack := (List.nodup_cons.mp hnd).1
            obtain ⟨m, memo1, heq, hok1, hpres1, hbound, hatt⟩ :=
              ih.2 (g.succs id) id stack memo hchain hmem (fun w hw => hw)
                (by omega) hmemo
            refine ⟨1 + m, (id, 1 + m) :: memo1, ?_, ?_, ?_, ?_⟩
            · simp only [getDepth, hm, hid, if_false, heq]
            · intro x v hv
              by_cases hx : id = x
              · subst hx
                rw [alookup_cons_self] at hv
                rw [Option.some.injEq] at hv
                subst hv
                constructor
                · intro p hp
                  rcases chainFrom_cases hp with rfl | ⟨w, q, rfl, hq, hs⟩
                  · simp
                  · have := hbound w hs q hq
                    simp only [List.length_cons]
                    omega
                · rcases hatt with rfl | ⟨w, hw, q, hq, hlen⟩
                  · exact ⟨[id], chainFrom_single g id, by simp⟩
                  · refine ⟨id :: q, chainFrom_cons_of_step hw hq, ?_⟩
                    simp only [List.length_cons, hlen]
                    omega
              · rw [alookup_cons_ne hx] at hv
                exact hok1 x v hv
            · intro x v hv
              have hxid : id ≠ x := by
                intro he
                rw [← he, hm] at hv
                exact Option.noConfusion hv
              rw [alookup_cons_ne hxid]
              exact hpres1 x v hv
            · exact alookup_cons_self
      refine ⟨P, ?_⟩
      intro ws id stack memo hchain hmem hws hfuel hmemo
      clear ih
      induction ws generalizing memo with
      | nil =>
          refine ⟨0, memo, by simp [getDepthList], hmemo, fun x v hv => hv, ?_, Or.inl rfl⟩
          intro w hw
          exact absurd hw (List.not_mem_nil w)
      | cons w ws' ihl =>
          have hsw : stepRel g id w := hws w (List.mem_cons_self _ _)
          obtain ⟨d, memo1, heq1, hok1, hpres1, hlook1⟩ :=
            P w (id :: stack) memo (stack_chain_snoc hchain hsw)
              (by
                intro x hx
                rcases List.mem_cons.mp hx with rfl | hx
                · exact closed_succs hC hsw
                · exact hmem x hx)
              (by simp only [List.length_cons]; omega) hmemo
          have hGoodw : DepthGood g w d := hok1 w d hlook1
          obtain ⟨m, memo2, heq2, hok2, hpres2, hbound2, hatt2⟩ :=
            ihl memo1 (fun w' hw' => hws w' (List.mem_cons_of_mem _ hw')) hok1
          refine ⟨max d m, memo2, ?_, hok2, ?_, ?_, ?_⟩
          · simp only [getDepthList, heq1, heq2]
          · exact fun x v hv => hpres2 x v (hpres1 x v hv)
          · intro w' hw' p hp
            rcases List.mem_cons.mp hw' with rfl | hw'
            · exact le_trans (hGoodw.1 p hp) (le_max_left d m)
            · exact le_trans (hbound2 w' hw' p hp) (le_max_right d m)
          · rcases hatt2 with rfl | ⟨w', hw', p, hp, hlen⟩
            · rcases hGoodw.2 with ⟨p, hp, hlen⟩
              refine Or.inr ⟨w, List.mem_cons_self _ _, p, hp, ?_⟩
              rw [hlen]
              exact (max_eq_left (Nat.zero_le d)).symm
            · by_cases hdm : d ≤ m
              · refine Or.inr ⟨w', List.mem_cons_of_mem _ hw', p, hp, ?_⟩
                rw [hlen]
                exact (max_eq_right hdm).symm
              · rcases hGoodw.2 with ⟨p0, hp0, hlen0⟩
                refine Or.inr ⟨w, List.mem_cons_self _ _, p0, hp0, ?_⟩
                rw [hlen0]
                exact (max_eq_left (le_of_not_le hdm)).symm

/-- The `maxPath` loop of `AnalyzeTopology` on an acyclic graph: it
returns the running maximum of all processed nodes' exact longest-path
counts, recorded in the final memo table. -/
lemma analyzeFold_dag (g : Graph) (hC : Closed g) (hA : Acyclic g) :
    ∀ (l : List (String × Node)) (mp : Nat) (memo : List (String × Nat)),
    (∀ p ∈ l, p.1 ∈ g.nodeKeys) → MemoOK g memo →
    ∃ M fm, analyzeFold g l (mp, memo) = some (M, fm) ∧ MemoOK g fm ∧
      (∀ x v, alookup memo x = some v → alookup fm x = some v) ∧
      mp ≤ M ∧
      (∀ p ∈ l, ∃ d, alookup fm p.1 = some d ∧ d ≤ M) ∧
      (M = mp ∨ ∃ p ∈ l, alookup fm p.1 = some M) := by
  intro l
  induction l with
  | nil =>
      intro mp memo _ hmemo
      exact ⟨mp, memo, rfl, hmemo, fun x v hv => hv, le_refl mp,
        fun p hp => absurd hp (List.not_mem_nil p), Or.inl rfl⟩
  | cons q rest ih =>
      intro mp memo hl hmemo
      obtain ⟨id, nd⟩ := q
      have hidk : id ∈ g.nodeKeys := hl (id, nd) (List.mem_cons_self _ _)
      obtain ⟨d, memo1, heq, hok1, hpres1, hlook1⟩ :=
        (getDepth_dag g hC hA g.lpFuel).1 id [] memo
          (by simp)
          (by
            intro x hx
            rcases List.mem_cons.mp hx with rfl | hx
            · exact hidk
            · exact absurd hx (List.not_mem_nil x))
          (by
            have : g.nodeKeys.length = g.nodes.length := List.length_map _ _
            simp only [Graph.lpFuel]
            omega)
          hmemo
      obtain ⟨M, fm, heq2, hok2, hpres2, hmp2, hent2, hatt2⟩ :=
        ih (max mp d) memo1 (fun p hp => hl p (List.mem_cons_of_mem _ hp)) hok1
      refine ⟨M, fm, ?_, hok2, ?_, ?_, ?_, ?_⟩
      · simp only [analyzeFold, heq, heq2]
      · exact fun x v hv => hpres2 x v (hpres1 x v hv)
      · exact le_trans (le_max_left mp d) hmp2
      · intro p hp
        rcases List.mem_cons.mp hp with rfl | hp
        · exact ⟨d, hpres2 _ _ hlook1, le_trans (le_max_right mp d) hmp2⟩
        · exact hent2 p hp
      · rcases hatt2 with rfl | ⟨p, hp, hlook⟩
        · by_cases hdm : d ≤ mp
          · exact Or.inl (max_eq_left hdm)
          · refine Or.inr ⟨(id, nd), List.mem_cons_self _ _, ?_⟩
            rw [max_eq_right (le_of_not_le hdm)]
            exact hpres2 _ _ hlook1
        · exact Or.inr ⟨p, List.mem_cons_of_mem _ hp, hlook⟩

/-- `stepRel` on the concrete graph `gDag` holds only from A to B. -/
lemma stepRel_gDag {x y : String} (h : stepRel gDag x y) :
    x = "public.A" ∧ y = "public.B" := by
  have he : gDag.edges =
      [("public.A",
        [{ sourceID := "public.A", targetID := "public.B",
           type := DependencyType.ForeignKey, constraintName := "fk1",
           deleteRule := "NO ACTION", metaData := [] }])] := rfl
  unfold stepRel Graph.succs at h
  rw [he] at h
  by_cases hx : "public.A" = x
  · subst hx
    simp [alookup] at h
    exact ⟨rfl, h⟩
  · simp [alookup, hx] at h

lemma gDag_acyclic : Acyclic gDag := by
  intro p hp
  cases p with
  | nil => simp
  | cons a q =>
      cases q with
      | nil => simp
      | cons b r =>
          rw [List.chain'_cons] at hp
          obtain ⟨hab, hrest⟩ := hp
          obtain ⟨ha, hb⟩ := stepRel_gDag hab
          subst ha
          subst hb
          cases r with
          | nil => decide
          | cons c s =>
              rw [List.chain'_cons] at hrest
              obtain ⟨hbc, _⟩ := hrest
              have := (stepRel_gDag hbc).1
              exact absurd this (by decide)

/-- The edge loop of `buildTree` produces, besides the child nodes, exactly
the warnings of the expansion events recorded by `traceChildren`, appended
in discovery order to the incoming accumulator, and the same visited set. -/
lemma buildChildren_trace (g : Graph) (id : String) (level : Nat)
    (recT : String → List String → Option (List ExpandEvent × List String))
    (recB : String → List String → List Warning →
      Option (TreeNode × List String × List Warning))
    (hrec : ∀ s v w evs vis, recT s v = some (evs, vis) →
      ∃ t, recB s v w = some (t, vis, w ++ evs.bind (eventWarnings g))) :
    ∀ (edges : List Edge) (visited : List String) (warnings : List Warning)
      (evs : List ExpandEvent) (vis : List String),
      traceChildren recT id level edges visited = some (evs, vis) →
      ∃ ts, buildChildren recB g id level edges visited warnings =
        some (ts, vis, warnings ++ evs.bind (eventWarnings g)) := by
  intro edges
  induction edges with
  | nil =>
      intro visited warnings evs vis h
      simp only [traceChildren, Option.some.injEq, Prod.mk.injEq] at h
      obtain ⟨h1, h2⟩ := h
      subst h1
      subst h2
      exact ⟨[], by simp [buildChildren]⟩
  | cons edge rest ih =>
      intro visited warnings evs vis h
      simp only [traceChildren] at h
      by_cases hv : edge.sourceID ∈ visited
      · rw [if_pos hv] at h
        obtain ⟨ts, hts⟩ := ih visited warnings evs vis h
        refine ⟨ts, ?_⟩
        simp only [buildChildren, if_pos hv]
        exact hts
      · rw [if_neg hv] at h
        cases hrt : recT edge.sourceID visited with
        | none => rw [hrt] at h; exact absurd h (by simp)
        | some r =>
            obtain ⟨evs1, vis1⟩ := r
            rw [hrt] at h
            dsimp only at h
            cases hrc : traceChildren recT id level rest vis1 with
            | none => rw [hrc] at h; exact absurd h (by simp)
            | some r2 =>
                obtain ⟨evs2, vis2⟩ := r2
                rw [hrc] at h
                dsimp only at h
                simp only [Option.some.injEq, Prod.mk.injEq] at h
                obtain ⟨h1, h2⟩ := h
                subst h1
                subst h2
                obtain ⟨t1, ht1⟩ := hrec _ _ warnings _ _ hrt
                obtain ⟨ts, hts⟩ :=
                  ih vis1 (warnings ++ evs1.bind (eventWarnings g) ++ stepWarnings g id level edge)
                    evs2 vis2 hrc
                refine ⟨{ t1 with edgeMeta := some edge } :: ts, ?_⟩
                simp only [buildChildren, if_neg hv, ht1, hts]
                simp [eventWarnings, List.append_assoc]
      -- end cons

/-- `buildTree` succeeds whenever the event trace does, returns the same
visited set, and its warnings are exactly the incoming accumulator followed
by the warnings of the recorded expansion events, in order. -/
lemma buildTree_trace (g : Graph) (rev : List (String × List Edge)) :
    ∀ (fuel : Nat) (id : String) (level : Nat) (visited : List String)
      (warnings : List Warning) (evs : List ExpandEvent) (vis : List String),
      impactTrace g rev fuel id level visited = some (evs, vis) →
      ∃ t, buildTree g rev fuel id level visited warnings =
        some (t, vis, warnings ++ evs.bind (eventWarnings g)) := by
  intro fuel
  induction fuel with
  | zero =>
      intro id level visited warnings evs vis h
      exact absurd h (by simp [impactTrace])
  | succ f ih =>
      intro id level visited warnings evs vis h
      simp only [impactTrace] at h
      obtain ⟨ts, hts⟩ :=
        buildChildren_trace g id level _ _
          (fun s v w evs' vis' h' => ih s (level + 1) v w evs' vis' h')
          ((alookup rev id).getD []) (id :: visited) warnings evs vis h
      refine ⟨{ id := id, type := (g.nodeAt id).type, size := (g.nodeAt id).size,
                rowCount := (g.nodeAt id).rowCount, edgeMeta := none,
                children := ts, level := level }, ?_⟩
      simp only [buildTree, hts]

/-- The cascade warnings contributed by one expansion event: exactly one
when the arrival edge's delete rule is `CASCADE` (whatever the edge type),
none otherwise. -/
lemma eventWarnings_filter_cascade (g : Graph) (e : ExpandEvent) :
    (eventWarnings g e).filter Warning.isCascade =
      if e.edge.deleteRule = "CASCADE" then [cascadeOf g e] else [] := by
  simp only [eventWarnings, stepWarnings, cascadeOf, List.filter_append]
  cases hmeta : alookup e.edge.metaData "fk_columns" with
  | none => simp only [hmeta]; split_ifs <;> simp [Warning.isCascade]
  | some cols => simp only [hmeta]; split_ifs <;> simp [Warning.isCascade]

/-- The view-coupling warnings contributed by one expansion event: exactly
one when the arrival edge is a view dependency and the expanded (parent)
node sits at level ≥ 2, none otherwise. -/
lemma eventWarnings_filter_view (g : Graph) (e : ExpandEvent) :
    (eventWarnings g e).filter Warning.isViewCoupling =
      if e.edge.type = DependencyType.ViewDepends ∧ 2 ≤ e.level
      then [Warning.viewCoupling e.edge.sourceID e.level] else [] := by
  simp only [eventWarnings, stepWarnings, List.filter_append]
  cases hmeta : alookup e.edge.metaData "fk_columns" with
  | none => simp only [hmeta]; split_ifs <;> simp [Warning.isViewCoupling]
  | some cols => simp only [hmeta]; split_ifs <;> simp [Warning.isViewCoupling]

lemma bind_filter_cascade (g : Graph) : ∀ evs : List ExpandEvent,
    (evs.bind (eventWarnings g)).filter Warning.isCascade =
      (evs.filter (fun e => decide (e.edge.deleteRule = "CASCADE"))).map (cascadeOf g) := by
  intro evs
  induction evs with
  | nil => rfl
  | cons e rest ih =>
      simp only [List.cons_bind, List.filter_append, List.filter_cons,
        eventWarnings_filter_cascade, ih]
      by_cases hc : e.edge.deleteRule = "CASCADE"
      · simp [hc]
      · simp [hc]

lemma bind_filter_view (g : Graph) : ∀ evs : List ExpandEvent,
    (evs.bind (eventWarnings g)).filter Warning.isViewCoupling =
      (evs.filter (fun e =>
          decide (e.edge.type = DependencyType.ViewDepends ∧ 2 ≤ e.level))).map
        (fun e => Warning.viewCoupling e.edge.sourceID e.level) := by
  intro evs
  induction evs with
  | nil => rfl
  | cons e rest ih =>
      simp only [List.cons_bind, List.filter_append, List.filter_cons,
        eventWarnings_filter_view, ih]
      by_cases hc : e.edge.type = DependencyType.ViewDepends ∧ 2 ≤ e.level
      · simp [hc]
      · simp [hc]

lemma prefixMatch_iff : ∀ (fkCols idx : List String),
    prefixMatch fkCols idx = true ↔
      (fkCols.length ≤ idx.length ∧ idx.take fkCols.length = fkCols) := by
  intro fkCols
  induction fkCols with
  | nil => intro idx; simp [prefixMatch]
  | cons c cs ih =>
      intro idx
      cases idx with
      | nil => simp [prefixMatch]
      | cons i is =>
          simp only [prefixMatch, Bool.and_eq_true, decide_eq_true_eq, ih,
            List.length_cons, List.take_succ_cons, List.cons.injEq]
          constructor
          · rintro ⟨rfl, hlen, htake⟩
            exact ⟨Nat.succ_le_succ hlen, rfl, htake⟩
          · rintro ⟨hlen, hi, htake⟩
            exact ⟨hi.symm, Nat.le_of_succ_le_succ hlen, htake⟩

lemma idxCovers_iff (idx fk : List String) :
    idxCovers idx fk = true ↔ CoversSpec idx fk := by
  unfold idxCovers CoversSpec
  split
  · rename_i hlt
    simp only [Bool.false_eq_true, false_iff, not_and]
    intro hle
    omega
  · rename_i hge
    exact prefixMatch_iff fk idx

lemma hasCoveringIndex_iff (idxs : List (List String)) (fk : List String) :
    hasCoveringIndex idxs fk = true ↔ ∃ idx ∈ idxs, CoversSpec idx fk := by
  unfold hasCoveringIndex
  rw [List.any_eq_true]
  constructor
  · rintro ⟨idx, hidx, hc⟩
    exact ⟨idx, hidx, (idxCovers_iff idx fk).mp hc⟩
  · rintro ⟨idx, hidx, hc⟩
    exact ⟨idx, hidx, (idxCovers_iff idx fk).mpr hc⟩

lemma foldl_bind_eq {α β γ : Type} (f : α → List β) (op : γ → β → γ) :
    ∀ (l : List α) (init : γ),
      l.foldl (fun acc a => (f a).foldl op acc) init = (l.bind f).foldl op init := by
  intro l
  induction l with
  | nil => intro init; rfl
  | cons a rest ih =>
      intro init
      simp only [List.foldl_cons, List.cons_bind, List.foldl_append]
      exact ih _

/-- Field-wise effect of one iteration of the `CheckIndexCoverage` loop. -/
lemma checkFKEdge_fields (g : Graph) (iss : IndexIssues) (e : Edge) :
    (checkFKEdge g iss e).totalFKs =
      iss.totalFKs + (if e.type = DependencyType.ForeignKey then 1 else 0) ∧
    (checkFKEdge g iss e).indexedFKs =
      iss.indexedFKs + (if fkCovered g e then 1 else 0) ∧
    (checkFKEdge g iss e).missingFKIndexes =
      iss.missingFKIndexes ++ (if fkMissing g e then [missingEntry e] else []) := by
  unfold checkFKEdge fkCovered fkMissing fkExamined missingEntry Graph.nodeAt
  by_cases ht : e.type = DependencyType.ForeignKey
  · rw [if_pos ht]
    cases hsrc : alookup g.nodes e.sourceID with
    | none => simp [ht, hsrc]
    | some n =>
        cases hmeta : fkUsableMeta e with
        | none => simp [ht, hsrc, hmeta]
        | some cols =>
            by_cases hcov : hasCoveringIndex n.indexes (cols.splitOn ",") = true
            · simp [ht, hsrc, hmeta, hcov]
            · simp [ht, hsrc, hmeta, hcov]
  · simp [ht]

/-- Field-wise effect of the whole `CheckIndexCoverage` loop over a list of
edges. -/
lemma checkFold (g : Graph) : ∀ (es : List Edge) (iss : IndexIssues),
    (es.foldl (checkFKEdge g) iss).totalFKs =
      iss.totalFKs + es.countP (fun e => decide (e.type = DependencyType.ForeignKey)) ∧
    (es.foldl (checkFKEdge g) iss).indexedFKs =
      iss.indexedFKs + es.countP (fkCovered g) ∧
    (es.foldl (checkFKEdge g) iss).missingFKIndexes =
      iss.missingFKIndexes ++ (es.filter (fkMissing g)).map missingEntry := by
  intro es
  induction es with
  | nil => intro iss; simp
  | cons e rest ih =>
      intro iss
      obtain ⟨h1, h2, h3⟩ := checkFKEdge_fields g iss e
      obtain ⟨i1, i2, i3⟩ := ih (checkFKEdge g iss e)
      simp only [List.foldl_cons]
      refine ⟨?_, ?_, ?_⟩
      · rw [i1, h1, List.countP_cons]
        by_cases ht : e.type = DependencyType.ForeignKey
        · simp [ht]
          omega
        · simp [ht]
      · rw [i2, h2, List.countP_cons]
        by_cases hc : fkCovered g e = true
        · simp [hc]
          omega
        · simp [hc]
      · rw [i3, h3, List.filter_cons]
        by_cases hm : fkMissing g e = true
        · simp [hm, List.append_assoc]
        · simp [hm]

lemma reach_refl (g : Graph) (a : String) : Reach g a a :=
  Relation.ReflTransGen.refl

lemma reach_step {g : Graph} {a b : String} (h : stepRel g a b) : Reach g a b :=
  Relation.ReflTransGen.single h

lemma reach_trans {g : Graph} {a b c : String} (h1 : Reach g a b) (h2 : Reach g b c) :
    Reach g a c :=
  Relation.ReflTransGen.trans h1 h2

lemma reach_head {g : Graph} {a b c : String} (h1 : stepRel g a b) (h2 : Reach g b c) :
    Reach g a c :=
  Relation.ReflTransGen.head h1 h2

lemma inSCC_refl (g : Graph) (a : String) : InSCC g a a :=
  ⟨reach_refl g a, reach_refl g a⟩

lemma inSCC_symm {g : Graph} {a b : String} (h : InSCC g a b) : InSCC g b a :=
  ⟨h.2, h.1⟩

lemma inSCC_trans {g : Graph} {a b c : String} (h1 : InSCC g a b) (h2 : InSCC g b c) :
    InSCC g a c :=
  ⟨reach_trans h1.1 h2.1, reach_trans h2.2 h1.2⟩

lemma reach_keys {g : Graph} (hC : Closed g) {a b : String} (h : Reach g a b)
    (ha : a ∈ g.nodeKeys) : b ∈ g.nodeKeys := by
  induction h with
  | refl => exact ha
  | tail h1 h2 ih => exact closed_succs hC h2

/-- Every element of the gray chain reaches its head (the innermost
active node): consecutive grays are joined by the call edges. -/
lemma chain_reach_head {g : Graph} : ∀ (a : String) (rest : List String),
    (a :: rest).Chain' (fun x y => stepRel g y x) → ∀ x ∈ a :: rest, Reach g x a := by
  intro a rest
  induction rest generalizing a with
  | nil =>
      intro _ x hx
      rw [List.mem_singleton.mp hx]
      exact reach_refl g a
  | cons b rest' ih =>
      intro hch x hx
      rw [List.chain'_cons] at hch
      obtain ⟨hba, hch'⟩ := hch
      rcases List.mem_cons.mp hx with rfl | hx'
      · exact reach_refl g x
      · exact reach_trans (ih b hch' x hx') (reach_step hba)

lemma pairwise_num_nodup {st : TarjanSt} {l : List String}
    (h : l.Pairwise (fun a b => st.num b < st.num a)) : l.Nodup :=
  h.imp (fun hab => by
    intro he
    subst he
    exact absurd hab (lt_irrefl _))

lemma split_first {v : String} {l : List String} (hv : v ∈ l) (hnd : l.Nodup) :
    ∃ l1 l2, l = l1 ++ v :: l2 ∧ v ∉ l1 ∧ v ∉ l2 := by
  obtain ⟨l1, l2, rfl⟩ := List.append_of_mem hv
  rw [List.nodup_append] at hnd
  obtain ⟨h1, h2, hdisj⟩ := hnd
  refine ⟨l1, l2, rfl, ?_, (List.nodup_cons.mp h2).1⟩
  intro hmem
  exact hdisj hmem (List.mem_cons_self v l2)

lemma popUntil_spec {v : String} : ∀ (l1 l2 : List String), v ∉ l1 →
    popUntil v (l1 ++ v :: l2) = (l1 ++ [v], l2) := by
  intro l1
  induction l1 with
  | nil => intro l2 _; simp [popUntil]
  | cons a rest ih =>
      intro l2 hv
      have ha : a ≠ v := fun h => hv (h ▸ List.mem_cons_self a rest)
      have hr := ih l2 (fun h => hv (List.mem_cons_of_mem a h))
      simp only [List.cons_append, popUntil, if_neg ha]
      rw [show rest.append (v :: l2) = rest ++ v :: l2 from rfl, hr]

/-- Removing the popped SCC from the (duplicate-free) stack leaves exactly
the remaining stack. -/
lemma filter_pop {v : String} {l1 l2 : List String}
    (hnd : (l1 ++ v :: l2).Nodup) :
    (l1 ++ v :: l2).filter (fun x => decide (x ∉ (l1 ++ [v]))) = l2 := by
  rw [List.nodup_append] at hnd
  obtain ⟨h1, h2, hdisj⟩ := hnd
  rw [List.filter_append]
  have hl1 : l1.filter (fun x => decide (x ∉ (l1 ++ [v]))) = [] := by
    rw [List.filter_eq_nil_iff]
    intro a ha
    simp [List.mem_append, ha]
  have hv : v ∈ l1 ++ [v] := by simp
  rw [hl1, List.nil_append, List.filter_cons, if_neg (by simp)]
  rw [List.filter_eq_self]
  intro a ha
  have hal1 : a ∉ l1 := fun h => hdisj h (List.mem_cons_of_mem v ha)
  have hav : a ≠ v := by
    intro he
    subst he
    exact (List.nodup_cons.mp h2).1 ha
  simp [List.mem_append, hal1, hav]

lemma sublist_cut {v : String} {gs l1 l2 : List String}
    (hnd : (l1 ++ v :: l2).Nodup)
    (hsub : (v :: gs).Sublist (l1 ++ v :: l2)) : gs.Sublist l2 := by
  induction l1 with
  | nil =>
      cases hsub with
      | cons₂ a h => exact h
      | cons a h =>
          exfalso
          have hv : v ∈ l2 := (List.cons_subset.mp h.subset).1
          exact (List.nodup_cons.mp hnd).1 hv
  | cons a l1' ih =>
      rw [List.cons_append] at hsub hnd
      cases hsub with
      | cons b h => exact ih (List.nodup_cons.mp hnd).2 h
      | cons₂ b h =>
          exfalso
          have hv : v ∈ l1' ++ v :: l2 := by simp
          exact (List.nodup_cons.mp hnd).1 hv

/-- A popped node only reaches popped nodes; in particular it cannot reach
a node still on the stack. -/
lemma popp_reach {g : Graph} {grays : List String} {st : TarjanSt} (hwf : WF g grays st)
    {a b : String} (h : Reach g a b) (ha : Ix st a ∧ a ∉ st.stack) :
    Ix st b ∧ b ∉ st.stack := by
  induction h with
  | refl => exact ha
  | tail h1 h2 ih => exact hwf.popped_closed _ ih.1 ih.2 _ h2

lemma Ix_pushNode {st : TarjanSt} {v w : String} :
    Ix (pushNode v st) w ↔ v = w ∨ Ix st w := by
  unfold Ix pushNode
  by_cases h : v = w
  · subst h
    rw [alookup_cons_self]
    simp
  · rw [alookup_cons_ne h]
    simp [h]

lemma num_pushNode_self (st : TarjanSt) (v : String) :
    (pushNode v st).num v = st.index := by
  unfold TarjanSt.num pushNode
  rw [alookup_cons_self]
  rfl

lemma num_pushNode_ne (st : TarjanSt) {v w : String} (h : v ≠ w) :
    (pushNode v st).num w = st.num w := by
  unfold TarjanSt.num pushNode
  rw [alookup_cons_ne h]

lemma low_pushNode_self (st : TarjanSt) (v : String) :
    (pushNode v st).low v = st.index := by
  unfold TarjanSt.low pushNode
  rw [alookup_cons_self]
  rfl

lemma low_pushNode_ne (st : TarjanSt) {v w : String} (h : v ≠ w) :
    (pushNode v st).low w = st.low w := by
  unfold TarjanSt.low pushNode
  rw [alookup_cons_ne h]

lemma Ix_setLow {st : TarjanSt} {v : String} {n : Nat} {w : String} :
    Ix (setLow st v n) w ↔ Ix st w := Iff.rfl

lemma num_setLow (st : TarjanSt) (v : String) (n : Nat) (w : String) :
    (setLow st v n).num w = st.num w := rfl

lemma low_setLow_self {st : TarjanSt} {v : String} {n : Nat}
    (hdom : (alookup st.lowLink v).isSome) : (setLow st v n).low v = n := by
  unfold TarjanSt.low setLow
  rw [alookup_aupdate, if_pos rfl]
  cases h : alookup st.lowLink v with
  | none => rw [h] at hdom; exact absurd hdom (by simp)
  | some m => simp

lemma low_setLow_ne {st : TarjanSt} {v w : String} {n : Nat} (h : v ≠ w) :
    (setLow st v n).low w = st.low w := by
  unfold TarjanSt.low setLow
  rw [alookup_aupdate, if_neg h]

lemma lowdom_setLow {st : TarjanSt} {v : String} {n : Nat} (w : String) :
    (alookup (setLow st v n).lowLink w).isSome ↔ (alookup st.lowLink w).isSome := by
  unfold setLow
  rw [alookup_aupdate]
  by_cases h : v = w
  · rw [if_pos h]
    simp
  · rw [if_neg h]

/-- Pushing a fresh node preserves the invariant and makes it the new
innermost gray. -/
lemma WF_pushNode {g : Graph} {gs : List String} {st : TarjanSt} {v : String}
    (hwf : WF g gs st) (habs : Absorb gs st)
    (hv : ¬ Ix st v) (hvk : v ∈ g.nodeKeys)
    (hcall : gs = [] ∨ ∃ c gs', gs = c :: gs' ∧ stepRel g c v) :
    WF g (v :: gs) (pushNode v st) ∧ Absorb (v :: gs) (pushNode v st) := by
  have hvstack : v ∉ st.stack := fun h => hv (hwf.stack_ix v h)
  have hvgs : v ∉ gs := fun h => hvstack (hwf.grays_sub.subset h)
  have hne : ∀ w, Ix st w → v ≠ w := fun w hw he => hv (he ▸ hw)
  have hnum : ∀ w, Ix st w → (pushNode v st).num w = st.num w :=
    fun w hw => num_pushNode_ne st (hne w hw)
  have hlow : ∀ w, Ix st w → (pushNode v st).low w = st.low w :=
    fun w hw => low_pushNode_ne st (hne w hw)
  have hstkix : ∀ w ∈ st.stack, Ix st w := hwf.stack_ix
  constructor
  · constructor
    case onstack_eq => show v :: st.onStack = v :: st.stack; rw [hwf.onstack_eq]
    case stack_ix =>
        intro w hw
        rcases List.mem_cons.mp hw with rfl | hw
        · exact Ix_pushNode.mpr (Or.inl rfl)
        · exact Ix_pushNode.mpr (Or.inr (hstkix w hw))
    case stack_sorted =>
        show List.Pairwise (fun a b => (pushNode v st).num b < (pushNode v st).num a)
          (v :: st.stack)
        rw [List.pairwise_cons]
        constructor
        · intro b hb
          rw [hnum b (hstkix b hb), num_pushNode_self]
          exact hwf.num_lt_index b (hstkix b hb)
        · refine hwf.stack_sorted.imp_of_mem ?_
          intro a b ha hb hab
          rw [hnum a (hstkix a ha), hnum b (hstkix b hb)]
          exact hab
    case ix_keys =>
        intro w hw
        rcases Ix_pushNode.mp hw with rfl | hw
        · exact hvk
        · exact hwf.ix_keys w hw
    case low_dom =>
        intro w
        by_cases h : v = w
        · subst h
          show (alookup ((v, st.index) :: st.lowLink) v).isSome ↔ _
          rw [alookup_cons_self]
          simp [Ix_pushNode]
        · show (alookup ((v, st.index) :: st.lowLink) w).isSome ↔ _
          rw [alookup_cons_ne h]
          rw [hwf.low_dom w]
          constructor
          · intro hw; exact Ix_pushNode.mpr (Or.inr hw)
          · intro hw
            rcases Ix_pushNode.mp hw with rfl | hw
            · exact absurd rfl h
            · exact hw
    case num_lt_index =>
        intro w hw
        show _ < st.index + 1
        rcases Ix_pushNode.mp hw with rfl | hw
        · rw [num_pushNode_self]; omega
        · rw [hnum w hw]
          have := hwf.num_lt_index w hw
          omega
    case num_inj =>
        intro w1 w2 h1 h2 heq
        rcases Ix_pushNode.mp h1 with rfl | h1
        · rcases Ix_pushNode.mp h2 with rfl | h2
          · rfl
          · rw [num_pushNode_self, hnum w2 h2] at heq
            exact absurd heq.symm (Nat.ne_of_lt (hwf.num_lt_index w2 h2))
        · rcases Ix_pushNode.mp h2 with rfl | h2
          · rw [num_pushNode_self, hnum w1 h1] at heq
            exact absurd heq (Nat.ne_of_lt (hwf.num_lt_index w1 h1))
          · rw [hnum w1 h1, hnum w2 h2] at heq
            exact hwf.num_inj w1 w2 h1 h2 heq
    case grays_sub => exact hwf.grays_sub.cons₂ v
    case grays_chain =>
        rcases hcall with rfl | ⟨c, gs', rfl, hc⟩
        · exact List.chain'_singleton v
        · exact List.chain'_cons.mpr ⟨hc, hwf.grays_chain⟩
    case stack_reach_gray =>
        intro w hw
        have hw2 : w = v ∨ w ∈ st.stack := List.mem_cons.mp hw
        rcases hw2 with rfl | hws2
        · exact ⟨w, List.mem_cons_self _ _, le_refl _, reach_refl g w, fun y _ hle => hle⟩
        · obtain ⟨x, hx, hle, hr, hmax⟩ := hwf.stack_reach_gray w hws2
          have hxix : Ix st x := hstkix x (hwf.grays_sub.subset hx)
          have hwix : Ix st w := hstkix w hws2
          refine ⟨x, List.mem_cons_of_mem _ hx, ?_, hr, ?_⟩
          · rw [hnum x hxix, hnum w hwix]
            exact hle
          · intro y hy hley
            have hy2 : y = v ∨ y ∈ gs := List.mem_cons.mp hy
            rcases hy2 with rfl | hys2
            · rw [num_pushNode_self, hnum w hwix] at hley
              exact absurd hley (by have := hwf.num_lt_index w hwix; omega)
            · have hyix : Ix st y := hstkix y (hwf.grays_sub.subset hys2)
              rw [hnum y hyix, hnum w hwix] at hley
              rw [hnum y hyix, hnum x hxix]
              exact hmax y hys2 hley
    case gray_reach_ix =>
        intro x hx w hw hle
        rcases List.mem_cons.mp hx with rfl | hx
        · rcases Ix_pushNode.mp hw with rfl | hw
          · exact reach_refl g x
          · rw [num_pushNode_self, hnum w hw] at hle
            exact absurd hle (by have := hwf.num_lt_index w hw; omega)
        · have hxix : Ix st x := hstkix x (hwf.grays_sub.subset hx)
          rcases Ix_pushNode.mp hw with rfl | hw
          · rcases hcall with rfl | ⟨c, gs', rfl, hc⟩
            · exact absurd hx (List.not_mem_nil x)
            · exact reach_trans (chain_reach_head c gs' hwf.grays_chain x hx)
                (reach_step hc)
          · rw [hnum x hxix, hnum w hw] at hle
            exact hwf.gray_reach_ix x hx w hw hle
    case fin_succ_ix =>
        intro w hw hwg z hz
        have hwv : w ≠ v := fun he => hwg (he ▸ List.mem_cons_self v gs)
        rcases Ix_pushNode.mp hw with rfl | hw
        · exact absurd rfl hwv
        · exact Ix_pushNode.mpr
            (Or.inr (hwf.fin_succ_ix w hw (fun h => hwg (List.mem_cons_of_mem _ h)) z hz))
    case popped_closed =>
        intro w hw hws z hz
        have hwv : w ≠ v := fun he => hws (he ▸ List.mem_cons_self v st.stack)
        rcases Ix_pushNode.mp hw with rfl | hw
        · exact absurd rfl hwv
        · have hold := hwf.popped_closed w hw (fun h => hws (List.mem_cons_of_mem _ h)) z hz
          refine ⟨Ix_pushNode.mpr (Or.inr hold.1), ?_⟩
          intro hzc
          rcases List.mem_cons.mp hzc with rfl | hzc
          · exact hv hold.1
          · exact hold.2 hzc
    case low_le_num =>
        intro w hw
        rcases Ix_pushNode.mp hw with rfl | hw
        · rw [num_pushNode_self, low_pushNode_self]
        · rw [hnum w hw, hlow w hw]
          exact hwf.low_le_num w hw
    case stack_low_witness =>
        intro w hw
        rcases List.mem_cons.mp hw with rfl | hw
        · exact ⟨w, List.mem_cons_self _ _, reach_refl g w,
            by rw [num_pushNode_self, low_pushNode_self]⟩
        · obtain ⟨u, hu, hr, hnu⟩ := hwf.stack_low_witness w hw
          refine ⟨u, List.mem_cons_of_mem _ hu, hr, ?_⟩
          rw [hnum u (hstkix u hu), hlow w (hstkix w hw)]
          exact hnu
    case fin_edge_coh =>
        intro w hw hwg z hz
        have hwv : w ≠ v := fun he => hwg (he ▸ List.mem_cons_self v gs)
        rcases Ix_pushNode.mp hw with rfl | hw
        · exact absurd rfl hwv
        · have hwng : w ∉ gs := fun h => hwg (List.mem_cons_of_mem _ h)
          rcases hwf.fin_edge_coh w hw hwng z hz with ⟨hz1, hz2⟩ | hz1 | ⟨hz1, hz2, hz3⟩
          · refine Or.inl ⟨Ix_pushNode.mpr (Or.inr hz1), ?_⟩
            intro hzc
            rcases List.mem_cons.mp hzc with rfl | hzc
            · exact hv hz1
            · exact hz2 hzc
          · refine Or.inr (Or.inl ?_)
            rw [hlow w hw]
            by_cases hzv : v = z
            · subst hzv
              rw [num_pushNode_self]
              have hz0 : st.num v = 0 := by
                unfold TarjanSt.num
                unfold Ix at hv
                cases hl : alookup st.indices v with
                | none => rfl
                | some m => rw [hl] at hv; simp at hv
              rw [hz0] at hz1
              omega
            · rw [num_pushNode_ne st hzv]
              exact hz1
          · refine Or.inr (Or.inr ⟨Ix_pushNode.mpr (Or.inr hz1), ?_, ?_⟩)
            · intro hzc
              rcases List.mem_cons.mp hzc with rfl | hzc
              · exact hv hz1
              · exact hz2 hzc
            · rw [hlow w hw, hlow z hz1]
              exact hz3
    case sccs_quality => exact hwf.sccs_quality
    case popped_rec =>
        intro w hw hws
        have hwv : w ≠ v := fun he => hws (he ▸ List.mem_cons_self v st.stack)
        rcases Ix_pushNode.mp hw with rfl | hw
        · exact absurd rfl hwv
        · exact hwf.popped_rec w hw (fun h => hws (List.mem_cons_of_mem _ h))
  · intro w hw hwg
    have hwv : w ≠ v := fun he => hwg (he ▸ List.mem_cons_self v gs)
    have hws : w ∈ st.stack := by
      rcases List.mem_cons.mp hw with rfl | h
      · exact absurd rfl hwv
      · exact h
    obtain ⟨x, hx, hle, hlo, hmax⟩ := habs w hws (fun h => hwg (List.mem_cons_of_mem _ h))
    have hxix : Ix st x := hstkix x (hwf.grays_sub.subset hx)
    have hwix : Ix st w := hstkix w hws
    refine ⟨x, List.mem_cons_of_mem _ hx, ?_, ?_, ?_⟩
    · rw [hnum x hxix, hnum w hwix]; exact hle
    · rw [hlow x hxix, hlow w hwix]; exact hlo
    · intro y hy hley
      rcases List.mem_cons.mp hy with rfl | hy
      · rw [num_pushNode_self, hnum w hwix] at hley
        exact absurd hley (by have := hwf.num_lt_index w hwix; omega)
      · rw [hnum y (hstkix y (hwf.grays_sub.subset hy)), hnum w hwix] at hley
        rw [hnum y (hstkix y (hwf.grays_sub.subset hy)), hnum x hxix]
        exact hmax y hy hley

/-- Lowering the innermost gray node's low-link to a value witnessed by a
reachable stack node preserves the invariant. -/
lemma WF_setLow {g : Graph} {gs : List String} {st : TarjanSt} {v : String} {n : Nat}
    (hwf : WF g (v :: gs) st)
    (hn : n ≤ st.low v)
    (hwit : ∃ u ∈ st.stack, Reach g v u ∧ st.num u = n) :
    WF g (v :: gs) (setLow st v n) := by
  have hvs : v ∈ st.stack := hwf.grays_sub.subset (List.mem_cons_self v gs)
  have hvx : Ix st v := hwf.stack_ix v hvs
  have hvdom : (alookup st.lowLink v).isSome := (hwf.low_dom v).mpr hvx
  constructor
  case onstack_eq => exact hwf.onstack_eq
  case stack_ix => exact hwf.stack_ix
  case stack_sorted => exact hwf.stack_sorted
  case ix_keys => exact hwf.ix_keys
  case low_dom =>
      intro w
      rw [lowdom_setLow]
      exact hwf.low_dom w
  case num_lt_index => exact hwf.num_lt_index
  case num_inj => exact hwf.num_inj
  case grays_sub => exact hwf.grays_sub
  case grays_chain => exact hwf.grays_chain
  case stack_reach_gray => exact hwf.stack_reach_gray
  case gray_reach_ix => exact hwf.gray_reach_ix
  case fin_succ_ix => exact hwf.fin_succ_ix
  case popped_closed => exact hwf.popped_closed
  case low_le_num =>
      intro w hw
      by_cases hvw : v = w
      · subst hvw
        rw [low_setLow_self hvdom]
        exact le_trans hn (hwf.low_le_num v hvx)
      · rw [low_setLow_ne hvw]
        exact hwf.low_le_num w hw
  case stack_low_witness =>
      intro w hw
      by_cases hvw : v = w
      · subst hvw
        obtain ⟨u, hu, hr, hnu⟩ := hwit
        refine ⟨u, hu, hr, ?_⟩
        rw [low_setLow_self hvdom]
        exact hnu
      · obtain ⟨u, hu, hr, hnu⟩ := hwf.stack_low_witness w hw
        refine ⟨u, hu, hr, ?_⟩
        rw [low_setLow_ne hvw]
        exact hnu
  case fin_edge_coh =>
      intro w hw hwg z hz
      have hwv : v ≠ w := fun he => hwg (he ▸ List.mem_cons_self v gs)
      rcases hwf.fin_edge_coh w hw hwg z hz with h1 | h1 | ⟨h1, h2, h3⟩
      · exact Or.inl h1
      · refine Or.inr (Or.inl ?_)
        rw [low_setLow_ne hwv]
        exact h1
      · have hzv : v ≠ z := fun he => h2 (he ▸ List.mem_cons_self v gs)
        refine Or.inr (Or.inr ⟨h1, h2, ?_⟩)
        rw [low_setLow_ne hwv, low_setLow_ne hzv]
        exact h3
  case sccs_quality => exact hwf.sccs_quality
  case popped_rec => exact hwf.popped_rec

/-- Lowering the innermost gray node's low-link also preserves the
absorption property. -/
lemma Absorb_setLow {g : Graph} {gs : List String} {st : TarjanSt} {v : String} {n : Nat}
    (hwf : WF g (v :: gs) st) (habs : Absorb (v :: gs) st)
    (hn : n ≤ st.low v) :
    Absorb (v :: gs) (setLow st v n) := by
  have hvs : v ∈ st.stack := hwf.grays_sub.subset (List.mem_cons_self v gs)
  have hvx : Ix st v := hwf.stack_ix v hvs
  have hvdom : (alookup st.lowLink v).isSome := (hwf.low_dom v).mpr hvx
  intro w hw hwg
  have hwv : v ≠ w := fun he => hwg (he ▸ List.mem_cons_self v gs)
  obtain ⟨x, hx, hnx, hlx, hmax⟩ := habs w hw hwg
  refine ⟨x, hx, hnx, ?_, hmax⟩
  by_cases hxv : v = x
  · subst hxv
    rw [low_setLow_self hvdom, low_setLow_ne hwv]
    exact le_trans hn hlx
  · rw [low_setLow_ne hxv, low_setLow_ne hwv]
    exact hlx

/-- At the root check (low-link of `v` equals its index, all successors of
`v` processed) every node reachable from `v` is indexed and is either
already popped or still carries an index at least that of `v`. -/
lemma pop_contra {g : Graph} {gs : List String} {st : TarjanSt} {v : String}
    (hwf : WF g (v :: gs) st) (habs : Absorb (v :: gs) st)
    (hsucc : ∀ z, stepRel g v z → Ix st z ∧
      (z ∉ st.stack ∨ st.low v ≤ st.num z ∨ (z ∉ (v :: gs) ∧ st.low v ≤ st.low z)))
    (hroot : st.low v = st.num v) :
    ∀ w, Reach g v w → Ix st w ∧ (w ∉ st.stack ∨ st.num v ≤ st.num w) := by
  have hvs : v ∈ st.stack := hwf.grays_sub.subset (List.mem_cons_self v gs)
  have hvx : Ix st v := hwf.stack_ix v hvs
  have hgl : ∀ y ∈ gs, st.num y < st.num v := by
    have hpw : (v :: gs).Pairwise (fun a b => st.num b < st.num a) :=
      List.Pairwise.sublist hwf.grays_sub hwf.stack_sorted
    exact (List.pairwise_cons.mp hpw).1
  intro w hr
  induction hr with
  | refl => exact ⟨hvx, Or.inr (le_refl _)⟩
  | @tail b c h1 h2 ih =>
      obtain ⟨hbix, hbd⟩ := ih
      by_cases hbs : b ∈ st.stack
      · rcases hbd with hbp | hbn
        · exact absurd hbs hbp
        by_cases hbv : b = v
        · subst hbv
          obtain ⟨hcix, hcd⟩ := hsucc _ h2
          rcases hcd with h | h | ⟨_, h⟩
          · exact ⟨hcix, Or.inl h⟩
          · rw [hroot] at h
            exact ⟨hcix, Or.inr h⟩
          · rw [hroot] at h
            exact ⟨hcix, Or.inr (le_trans h (hwf.low_le_num _ hcix))⟩
        · have hbgs : b ∉ (v :: gs) := by
            intro hmem
            rcases List.mem_cons.mp hmem with he | hgs
            · exact hbv he
            · have := hgl _ hgs
              omega
          obtain ⟨x, hx, hnx, hlx, hmax⟩ := habs _ hbs hbgs
          have hxv : x = v := by
            have h1 : st.num v ≤ st.num x := hmax v (List.mem_cons_self v gs) hbn
            rcases List.mem_cons.mp hx with he | hxgs
            · exact he
            · have := hgl x hxgs
              omega
          subst hxv
          have hcix : Ix st _ := hwf.fin_succ_ix _ hbix hbgs _ h2
          rcases hwf.fin_edge_coh _ hbix hbgs _ h2 with ⟨_, hp⟩ | hle | ⟨_, _, hle⟩
          · exact ⟨hcix, Or.inl hp⟩
          · refine ⟨hcix, Or.inr ?_⟩
            have := le_trans hlx hle
            omega
          · refine ⟨hcix, Or.inr ?_⟩
            have h3 := hwf.low_le_num _ hcix
            have := le_trans (le_trans hlx hle) h3
            omega
      · have := hwf.popped_closed _ hbix hbs _ h2
        exact ⟨this.1, Or.inl this.2⟩

/-- Popping the SCC of a root `v` restores the invariant for the outer
gray list: the popped segment is exactly the SCC of `v`, the remaining
stack is the part below `v`, and the recorded components stay sound. -/
lemma WF_popState {g : Graph} {gs : List String} {st : TarjanSt} {v : String}
    {l1 l2 : List String}
    (hwf : WF g (v :: gs) st) (habs : Absorb (v :: gs) st)
    (hsucc : ∀ z, stepRel g v z → Ix st z ∧
      (z ∉ st.stack ∨ st.low v ≤ st.num z ∨ (z ∉ (v :: gs) ∧ st.low v ≤ st.low z)))
    (hroot : st.low v = st.num v)
    (hsplit : st.stack = l1 ++ v :: l2) (hv1 : v ∉ l1) :
    WF g gs (popState g v st) ∧ Absorb gs (popState g v st) ∧
      (popState g v st).stack = l2 ∧ (popState g v st).indices = st.indices ∧
      (popState g v st).lowLink = st.lowLink ∧ (popState g v st).index = st.index ∧
      ∃ growth, (popState g v st).sccs = st.sccs ++ growth := by
  have hvs : v ∈ st.stack := hwf.grays_sub.subset (List.mem_cons_self v gs)
  have hvx : Ix st v := hwf.stack_ix v hvs
  have hnd : st.stack.Nodup := pairwise_num_nodup hwf.stack_sorted
  have hnd2 : (l1 ++ v :: l2).Nodup := hsplit ▸ hnd
  have hv2 : v ∉ l2 := (List.nodup_cons.mp (List.nodup_append.mp hnd2).2.1).1
  have hpop : popUntil v st.stack = (l1 ++ [v], l2) := by
    rw [hsplit]
    exact popUntil_spec l1 l2 hv1
  have hps : popState g v st =
      { st with
        stack := l2,
        onStack := st.onStack.filter (fun x => decide (x ∉ (l1 ++ [v]))),
        sccs := if (decide (1 < (l1 ++ [v]).length) || decide (v ∈ g.succs v)) = true
          then st.sccs ++ [l1 ++ [v]] else st.sccs } := by
    unfold popState
    rw [hpop]
  have hsrt := hwf.stack_sorted
  rw [hsplit] at hsrt
  have hsrt2 := (List.pairwise_append.mp hsrt).2.1
  have hgl2 : ∀ w ∈ l2, st.num w < st.num v := (List.pairwise_cons.mp hsrt2).1
  have hgl1 : ∀ w ∈ l1, st.num v < st.num w := by
    intro w hw
    exact (List.pairwise_append.mp hsrt).2.2 w hw v (List.mem_cons_self v l2)
  have hglgs : ∀ y ∈ gs, st.num y < st.num v := by
    have hpw : (v :: gs).Pairwise (fun a b => st.num b < st.num a) :=
      List.Pairwise.sublist hwf.grays_sub hwf.stack_sorted
    exact (List.pairwise_cons.mp hpw).1
  have hsegstack : ∀ w ∈ l1 ++ [v], w ∈ st.stack := by
    intro w hw
    rw [hsplit]
    rcases List.mem_append.mp hw with h | h
    · exact List.mem_append.mpr (Or.inl h)
    · rw [List.mem_singleton.mp h]
      exact List.mem_append.mpr (Or.inr (List.mem_cons_self v l2))
  have hsegIx : ∀ w ∈ l1 ++ [v], Ix st w := fun w hw => hwf.stack_ix w (hsegstack w hw)
  have hsegnum : ∀ w ∈ l1 ++ [v], st.num v ≤ st.num w := by
    intro w hw
    rcases List.mem_append.mp hw with h | h
    · exact le_of_lt (hgl1 w h)
    · rw [List.mem_singleton.mp h]
  have hl2stack : ∀ z ∈ l2, z ∈ st.stack := by
    intro z hz
    rw [hsplit]
    exact List.mem_append.mpr (Or.inr (List.mem_cons_of_mem v hz))
  have hAreach : ∀ w ∈ l1 ++ [v], InSCC g v w := by
    intro w hw
    refine ⟨hwf.gray_reach_ix v (List.mem_cons_self v gs) w (hsegIx w hw) (hsegnum w hw), ?_⟩
    obtain ⟨x, hx, hnx, hr, hmax⟩ := hwf.stack_reach_gray w (hsegstack w hw)
    have hxv : x = v := by
      have h1 : st.num v ≤ st.num x := hmax v (List.mem_cons_self v gs) (hsegnum w hw)
      rcases List.mem_cons.mp hx with he | hxgs
      · exact he
      · have := hglgs x hxgs
        omega
    rw [hxv] at hr
    exact hr
  have hPC := pop_contra hwf habs hsucc hroot
  have hBseg : ∀ w, InSCC g v w → w ∈ l1 ++ [v] := by
    intro w hw
    obtain ⟨hvw, hwv⟩ := hw
    have hws : w ∈ st.stack := by
      by_contra hns
      exact (popp_reach hwf hwv ⟨(hPC w hvw).1, hns⟩).2 hvs
    rcases (hPC w hvw).2 with h | h
    · exact absurd hws h
    · rw [hsplit] at hws
      rcases List.mem_append.mp hws with h1 | h1
      · exact List.mem_append.mpr (Or.inl h1)
      · rcases List.mem_cons.mp h1 with rfl | h2
        · exact List.mem_append.mpr (Or.inr (List.mem_singleton_self w))
        · have := hgl2 w h2
          omega
  have hsegnodup : (l1 ++ [v]).Nodup := by
    refine hnd2.sublist ?_
    exact (List.append_sublist_append_left l1).mpr (List.Sublist.cons₂ v (List.nil_sublist l2))
  have hnewpop : ∀ w, w ∈ st.stack → w ∉ l2 → w ∈ l1 ++ [v] := by
    intro w hws hwl2
    rw [hsplit] at hws
    rcases List.mem_append.mp hws with h | h
    · exact List.mem_append.mpr (Or.inl h)
    · rcases List.mem_cons.mp h with rfl | h2
      · exact List.mem_append.mpr (Or.inr (List.mem_singleton_self w))
      · exact absurd h2 hwl2
  rw [hps]
  refine ⟨?_, ?_, rfl, rfl, rfl, rfl, ?_⟩
  · constructor
    case onstack_eq =>
        show st.onStack.filter _ = l2
        rw [hwf.onstack_eq, hsplit]
        exact filter_pop hnd2
    case stack_ix =>
        intro w hw
        exact hwf.stack_ix w (hl2stack w hw)
    case stack_sorted => exact (List.pairwise_cons.mp hsrt2).2
    case ix_keys => exact hwf.ix_keys
    case low_dom => exact hwf.low_dom
    case num_lt_index => exact hwf.num_lt_index
    case num_inj => exact hwf.num_inj
    case grays_sub =>
        refine sublist_cut hnd2 ?_
        have := hwf.grays_sub
        rw [hsplit] at this
        exact this
    case grays_chain =>
        cases gs with
        | nil => exact List.chain'_nil
        | cons a rest => exact (List.chain'_cons.mp hwf.grays_chain).2
    case stack_reach_gray =>
        intro w hw
        obtain ⟨x, hx, hnx, hr, hmax⟩ := hwf.stack_reach_gray w (hl2stack w hw)
        have hxgs : x ∈ gs := by
          rcases List.mem_cons.mp hx with rfl | h
          · have := hgl2 w hw
            omega
          · exact h
        exact ⟨x, hxgs, hnx, hr, fun y hy hley => hmax y (List.mem_cons_of_mem v hy) hley⟩
    case gray_reach_ix =>
        intro x hx
        exact hwf.gray_reach_ix x (List.mem_cons_of_mem v hx)
    case fin_succ_ix =>
        intro w hw hwg z hz
        by_cases hwv : w = v
        · subst hwv
          exact (hsucc z hz).1
        · refine hwf.fin_succ_ix w hw ?_ z hz
          intro hmem
          rcases List.mem_cons.mp hmem with he | h
          · exact hwv he
          · exact hwg h
    case popped_closed =>
        intro w hw hwl2 z hz
        by_cases hws : w ∈ st.stack
        · have hwseg := hnewpop w hws hwl2
          have hreach : Reach g v z := reach_trans (hAreach w hwseg).1 (reach_step hz)
          obtain ⟨hzix, hzd⟩ := hPC z hreach
          refine ⟨hzix, ?_⟩
          rcases hzd with h | h
          · exact fun hzl2 => h (hl2stack z hzl2)
          · intro hzl2
            have := hgl2 z hzl2
            omega
        · have := hwf.popped_closed w hw hws z hz
          exact ⟨this.1, fun hzl2 => this.2 (hl2stack z hzl2)⟩
    case low_le_num => exact hwf.low_le_num
    case stack_low_witness =>
        intro w hw
        obtain ⟨u, hu, hr, hnu⟩ := hwf.stack_low_witness w (hl2stack w hw)
        have hul2 : u ∈ l2 := by
          have hlt : st.num u < st.num v := by
            have h1 := hwf.low_le_num w (hwf.stack_ix w (hl2stack w hw))
            have h2 := hgl2 w hw
            omega
          rw [hsplit] at hu
          rcases List.mem_append.mp hu with h | h
          · have := hgl1 u h
            omega
          · rcases List.mem_cons.mp h with rfl | h2
            · omega
            · exact h2
        exact ⟨u, hul2, hr, hnu⟩
    case fin_edge_coh =>
        intro w hw hwg z hz
        by_cases hwv : w = v
        · subst hwv
          obtain ⟨hzix, hzd⟩ := hsucc z hz
          rcases hzd with h | h | ⟨h1, h2⟩
          · exact Or.inl ⟨hzix, fun hzl2 => h (hl2stack z hzl2)⟩
          · exact Or.inr (Or.inl h)
          · refine Or.inr (Or.inr ⟨hzix, ?_, h2⟩)
            exact fun hmem => h1 (List.mem_cons_of_mem _ hmem)
        · have hwvgs : w ∉ (v :: gs) := by
            intro hmem
            rcases List.mem_cons.mp hmem with he | h
            · exact hwv he
            · exact hwg h
          by_cases hws : w ∈ st.stack
          · by_cases hwl2 : w ∈ l2
            · rcases hwf.fin_edge_coh w hw hwvgs z hz with ⟨hzix, hzs⟩ | h | ⟨hzix, hzg, hle⟩
              · exact Or.inl ⟨hzix, fun hzl2 => hzs (hl2stack z hzl2)⟩
              · exact Or.inr (Or.inl h)
              · refine Or.inr (Or.inr ⟨hzix, ?_, hle⟩)
                exact fun hmem => hzg (List.mem_cons_of_mem v hmem)
            · have hwseg := hnewpop w hws hwl2
              have hreach : Reach g v z := reach_trans (hAreach w hwseg).1 (reach_step hz)
              obtain ⟨hzix, hzd⟩ := hPC z hreach
              refine Or.inl ⟨hzix, ?_⟩
              rcases hzd with h | h
              · exact fun hzl2 => h (hl2stack z hzl2)
              · intro hzl2
                have := hgl2 z hzl2
                omega
          · have := hwf.popped_closed w hw hws z hz
            exact Or.inl ⟨this.1, fun hzl2 => this.2 (hl2stack z hzl2)⟩
    case sccs_quality =>
        by_cases hic : (decide (1 < (l1 ++ [v]).length) || decide (v ∈ g.succs v)) = true
        · rw [if_pos hic]
          intro S hS
          rcases List.mem_append.mp hS with h | h
          · exact hwf.sccs_quality S h
          · have hSeq : S = l1 ++ [v] := List.mem_singleton.mp h
            subst hSeq
            refine ⟨v, List.mem_append.mpr (Or.inr (List.mem_singleton_self v)),
              hsegnodup, fun w => ⟨hAreach w, hBseg w⟩, ?_⟩
            simp only [Bool.or_eq_true, decide_eq_true_eq] at hic
            exact hic
        · rw [if_neg hic]
          exact hwf.sccs_quality
    case popped_rec =>
        intro w hw hwl2
        by_cases hws : w ∈ st.stack
        · have hwseg := hnewpop w hws hwl2
          by_cases hic : (decide (1 < (l1 ++ [v]).length) || decide (v ∈ g.succs v)) = true
          · rw [if_pos hic]
            exact Or.inl ⟨l1 ++ [v],
              List.mem_append.mpr (Or.inr (List.mem_singleton_self _)), hwseg⟩
          · rw [if_neg hic]
            have hic2 : (l1 ++ [v]).length ≤ 1 ∧ v ∉ g.succs v := by
              simp only [Bool.or_eq_true, decide_eq_true_eq] at hic
              push_neg at hic
              exact hic
            have hl1nil : l1 = [] := by
              cases l1 with
              | nil => rfl
              | cons a rest =>
                  exfalso
                  have := hic2.1
                  simp [List.length_append] at this
            subst hl1nil
            have hwv : w = v := List.mem_singleton.mp (by simpa using hwseg)
            subst hwv
            refine Or.inr ⟨hic2.2, fun z hz => ?_⟩
            have := hBseg z hz
            simpa using this
        · rcases hwf.popped_rec w hw hws with ⟨S, hS, hwS⟩ | h
          · refine Or.inl ⟨S, ?_, hwS⟩
            by_cases hic : (decide (1 < (l1 ++ [v]).length) || decide (v ∈ g.succs v)) = true
            · rw [if_pos hic]
              exact List.mem_append.mpr (Or.inl hS)
            · rw [if_neg hic]
              exact hS
          · exact Or.inr h
  · intro w hw hwg
    have hwvgs : w ∉ (v :: gs) := by
      intro hmem
      rcases List.mem_cons.mp hmem with he | h
      · exact hv2 (he ▸ hw)
      · exact hwg h
    obtain ⟨x, hx, hnx, hlx, hmax⟩ := habs w (hl2stack w hw) hwvgs
    have hxgs : x ∈ gs := by
      rcases List.mem_cons.mp hx with rfl | h
      · have := hgl2 w hw
        omega
      · exact h
    exact ⟨x, hxgs, hnx, hlx, fun y hy hley => hmax y (List.mem_cons_of_mem v hy) hley⟩
  · by_cases hic : (decide (1 < (l1 ++ [v]).length) || decide (v ∈ g.succs v)) = true
    · refine ⟨[l1 ++ [v]], ?_⟩
      show (if _ = true then _ else _) = _
      rw [if_pos hic]
    · refine ⟨[], ?_⟩
      show (if _ = true then _ else _) = _
      rw [if_neg hic, List.append_nil]

lemma Ix_of_lookup {st : TarjanSt} {w : String} {i : Nat}
    (h : alookup st.indices w = some i) : Ix st w := by
  unfold Ix
  rw [h]
  rfl

lemma num_of_lookup {st : TarjanSt} {w : String} {i : Nat}
    (h : alookup st.indices w = some i) : st.num w = i := by
  unfold TarjanSt.num
  rw [h]
  rfl

lemma not_Ix_of_lookup_none {st : TarjanSt} {w : String}
    (h : alookup st.indices w = none) : ¬ Ix st w := by
  unfold Ix
  rw [h]
  simp

/-- The count of unindexed nodes depends only on the index table. -/
lemma unIx_congr {g : Graph} {st1 st2 : TarjanSt} (h : st1.indices = st2.indices) :
    unIx g st1 = unIx g st2 := by
  unfold unIx
  congr 1
  apply List.filter_congr
  intro k _
  apply decide_eq_decide.mpr
  apply not_congr
  unfold Ix
  rw [h]

lemma unIx_pos {g : Graph} {st : TarjanSt} {v : String} (hv : v ∈ g.nodeKeys)
    (hnx : ¬ Ix st v) : 1 ≤ unIx g st := by
  unfold unIx
  have hm : v ∈ g.nodeKeys.filter (fun k => decide (¬ Ix st k)) :=
    List.mem_filter.mpr ⟨hv, by simpa using hnx⟩
  exact List.length_pos_of_mem hm

lemma unIx_le_keys (g : Graph) (st : TarjanSt) : unIx g st ≤ g.nodeKeys.length :=
  List.length_filter_le _ _

lemma unIx_push_aux {st : TarjanSt} {v : String} (hnx : ¬ Ix st v) :
    ∀ l : List String, l.Nodup → v ∈ l →
    (l.filter (fun k => decide (¬ Ix (pushNode v st) k))).length + 1 =
    (l.filter (fun k => decide (¬ Ix st k))).length := by
  intro l
  induction l with
  | nil =>
      intro _ h
      exact absurd h (List.not_mem_nil v)
  | cons a t ih =>
      intro hnd hv
      obtain ⟨hat, hndt⟩ := List.nodup_cons.mp hnd
      by_cases hva : v = a
      · subst hva
        have h1 : (decide (¬ Ix (pushNode v st) v)) = false := by
          simp [Ix_pushNode]
        have h2 : (decide (¬ Ix st v)) = true := by simpa using hnx
        have h3 : t.filter (fun k => decide (¬ Ix (pushNode v st) k)) =
            t.filter (fun k => decide (¬ Ix st k)) := by
          apply List.filter_congr
          intro k hk
          apply decide_eq_decide.mpr
          apply not_congr
          rw [Ix_pushNode]
          constructor
          · intro h
            rcases h with he | h
            · exact absurd (he ▸ hk) hat
            · exact h
          · exact Or.inr
        rw [List.filter_cons, List.filter_cons, h1, h2, h3]
        simp
      · have hvt : v ∈ t := by
          rcases List.mem_cons.mp hv with he2 | h
          · exact absurd he2 hva
          · exact h
        have he : (decide (¬ Ix (pushNode v st) a)) = (decide (¬ Ix st a)) := by
          apply decide_eq_decide.mpr
          apply not_congr
          rw [Ix_pushNode]
          constructor
          · intro h
            rcases h with he2 | h
            · exact absurd he2 hva
            · exact h
          · exact Or.inr
        rw [List.filter_cons, List.filter_cons, he]
        by_cases hpa : (decide (¬ Ix st a)) = true
        · rw [hpa]
          simp only [if_pos]
          rw [List.length_cons, List.length_cons]
          have := ih hndt hvt
          omega
        · rw [Bool.not_eq_true] at hpa
          rw [hpa]
          simp only [Bool.false_eq_true, if_neg, not_false_iff]
          exact ih hndt hvt

/-- Pushing an unindexed node decreases the unindexed count by one. -/
lemma unIx_pushNode {g : Graph} {st : TarjanSt} {v : String}
    (hv : v ∈ g.nodeKeys) (hnd : g.nodeKeys.Nodup) (hnx : ¬ Ix st v) :
    unIx g (pushNode v st) + 1 = unIx g st :=
  unIx_push_aux hnx g.nodeKeys hnd hv

/-- Non-root return: when the root check fails (the low-link of `v` sits
strictly below its index) the invariant survives `v` leaving the gray
list, because every stack node whose maximal gray witness was `v` also
reaches the caller through the low-link witness of `v`. -/
lemma WF_ungray {g : Graph} {c : String} {gs2 : List String} {st : TarjanSt} {v : String}
    (hwf : WF g (v :: c :: gs2) st)
    (hsucc : ∀ z, stepRel g v z → Ix st z ∧
      (z ∉ st.stack ∨ st.low v ≤ st.num z ∨ (z ∉ (v :: c :: gs2) ∧ st.low v ≤ st.low z)))
    (hlow : st.low v < st.num v) :
    WF g (c :: gs2) st := by
  have hvs : v ∈ st.stack := hwf.grays_sub.subset (List.mem_cons_self _ _)
  have hvx : Ix st v := hwf.stack_ix v hvs
  have hpw : (v :: c :: gs2).Pairwise (fun a b => st.num b < st.num a) :=
    List.Pairwise.sublist hwf.grays_sub hwf.stack_sorted
  have hglt : ∀ y ∈ c :: gs2, st.num y < st.num v := (List.pairwise_cons.mp hpw).1
  have hpw2 : (c :: gs2).Pairwise (fun a b => st.num b < st.num a) :=
    (List.pairwise_cons.mp hpw).2
  have hglt2 : ∀ y ∈ gs2, st.num y < st.num c := (List.pairwise_cons.mp hpw2).1
  have hchain2 : (c :: gs2).Chain' (fun a b => stepRel g b a) :=
    (List.chain'_cons.mp hwf.grays_chain).2
  have hreach_vc : Reach g v c := by
    obtain ⟨u, hu, hru, hnu⟩ := hwf.stack_low_witness v hvs
    obtain ⟨y, hy, hny, hry, hmaxy⟩ := hwf.stack_reach_gray u hu
    have hygs : y ∈ c :: gs2 := by
      rcases List.mem_cons.mp hy with rfl | h
      · have hlt : st.num u < st.num y := by omega
        omega
      · exact h
    exact reach_trans hru (reach_trans hry (chain_reach_head c gs2 hchain2 y hygs))
  constructor
  case onstack_eq => exact hwf.onstack_eq
  case stack_ix => exact hwf.stack_ix
  case stack_sorted => exact hwf.stack_sorted
  case ix_keys => exact hwf.ix_keys
  case low_dom => exact hwf.low_dom
  case num_lt_index => exact hwf.num_lt_index
  case num_inj => exact hwf.num_inj
  case grays_sub =>
      exact List.Sublist.trans (List.Sublist.cons v (List.Sublist.refl (c :: gs2)))
        hwf.grays_sub
  case grays_chain => exact hchain2
  case stack_reach_gray =>
      intro w hw
      obtain ⟨x, hx, hnx, hrx, hmaxx⟩ := hwf.stack_reach_gray w hw
      by_cases hxv : x = v
      · subst hxv
        refine ⟨c, List.mem_cons_self _ _, ?_, reach_trans hrx hreach_vc, ?_⟩
        · have h1 := hglt c (List.mem_cons_self _ _)
          omega
        · intro y hy hley
          rcases List.mem_cons.mp hy with rfl | h
          · exact le_refl _
          · have := hglt2 y h
            omega
      · have hxgs : x ∈ c :: gs2 := by
          rcases List.mem_cons.mp hx with he | h
          · exact absurd he hxv
          · exact h
        exact ⟨x, hxgs, hnx, hrx, fun y hy hley => hmaxx y (List.mem_cons_of_mem _ hy) hley⟩
  case gray_reach_ix =>
      intro x hx
      exact hwf.gray_reach_ix x (List.mem_cons_of_mem _ hx)
  case fin_succ_ix =>
      intro w hw hwg z hz
      by_cases hwv : w = v
      · subst hwv
        exact (hsucc z hz).1
      · refine hwf.fin_succ_ix w hw ?_ z hz
        intro hmem
        rcases List.mem_cons.mp hmem with he | h
        · exact hwv he
        · exact hwg h
  case popped_closed => exact hwf.popped_closed
  case low_le_num => exact hwf.low_le_num
  case stack_low_witness => exact hwf.stack_low_witness
  case fin_edge_coh =>
      intro w hw hwg z hz
      by_cases hwv : w = v
      · subst hwv
        obtain ⟨hzix, hd⟩ := hsucc z hz
        rcases hd with h | h | ⟨h1, h2⟩
        · exact Or.inl ⟨hzix, h⟩
        · exact Or.inr (Or.inl h)
        · exact Or.inr (Or.inr ⟨hzix, fun hm => h1 (List.mem_cons_of_mem _ hm), h2⟩)
      · have hwvgs : w ∉ (v :: c :: gs2) := by
          intro hmem
          rcases List.mem_cons.mp hmem with he | h
          · exact hwv he
          · exact hwg h
        rcases hwf.fin_edge_coh w hw hwvgs z hz with h | h | ⟨hzix, hzg, hle⟩
        · exact Or.inl h
        · exact Or.inr (Or.inl h)
        · exact Or.inr (Or.inr ⟨hzix, fun hm => hzg (List.mem_cons_of_mem _ hm), hle⟩)
  case sccs_quality => exact hwf.sccs_quality
  case popped_rec => exact hwf.popped_rec

/-- After a non-root child `w` returns and the caller `v` takes the
minimum of its low-link with the low-link of `w`, the absorption property
descends from the gray list headed by `w` to the one headed by `v`. -/
lemma Absorb_return {g : Graph} {gs : List String} {st1 st2 : TarjanSt} {v w : String}
    (hwf1 : WF g (v :: gs) st1)
    (habs1 : Absorb (w :: v :: gs) st1)
    (hnum_vw : st1.num v < st1.num w)
    (hwvgs : w ∉ (v :: gs))
    (hstack : st2.stack = st1.stack)
    (hnum : ∀ x, st2.num x = st1.num x)
    (hlowv1 : st2.low v ≤ st1.low w) (hlowv2 : st2.low v ≤ st1.low v)
    (hlowne : ∀ x, x ≠ v → st2.low x = st1.low x) :
    Absorb (v :: gs) st2 := by
  have hglt : ∀ y ∈ gs, st1.num y < st1.num v := by
    have hpw : (v :: gs).Pairwise (fun a b => st1.num b < st1.num a) :=
      List.Pairwise.sublist hwf1.grays_sub hwf1.stack_sorted
    exact (List.pairwise_cons.mp hpw).1
  have hwvne : w ≠ v := fun he => hwvgs (he ▸ List.mem_cons_self _ _)
  intro z hz hzg
  rw [hstack] at hz
  by_cases hzw : z = w
  · subst hzw
    refine ⟨v, List.mem_cons_self _ _, ?_, ?_, ?_⟩
    · rw [hnum, hnum]
      exact le_of_lt hnum_vw
    · rw [hlowne z hwvne]
      exact hlowv1
    · intro y hy hley
      rcases List.mem_cons.mp hy with rfl | h
      · exact le_refl _
      · rw [hnum, hnum]
        have := hglt y h
        omega
  · have hzv : z ≠ v := fun he => hzg (he ▸ List.mem_cons_self _ _)
    have hzwvgs : z ∉ (w :: v :: gs) := by
      intro hmem
      rcases List.mem_cons.mp hmem with he | h
      · exact hzw he
      · exact hzg h
    obtain ⟨x, hx, hnx, hlx, hmax⟩ := habs1 z hz hzwvgs
    by_cases hxw : x = w
    · subst hxw
      refine ⟨v, List.mem_cons_self _ _, ?_, ?_, ?_⟩
      · rw [hnum, hnum]
        omega
      · rw [hlowne z hzv]
        exact le_trans hlowv1 hlx
      · intro y hy hley
        rcases List.mem_cons.mp hy with rfl | h
        · exact le_refl _
        · rw [hnum, hnum]
          have := hglt y h
          omega
    · have hxvgs : x ∈ v :: gs := by
        rcases List.mem_cons.mp hx with he | h
        · exact absurd he hxw
        · exact h
      refine ⟨x, hxvgs, ?_, ?_, ?_⟩
      · rw [hnum, hnum]
        exact hnx
      · by_cases hxv : x = v
        · subst hxv
          rw [hlowne z hzv]
          exact le_trans hlowv2 hlx
        · rw [hlowne x hxv, hlowne z hzv]
          exact hlx
      · intro y hy hley
        rw [hnum, hnum]
        rw [hnum, hnum] at hley
        exact hmax y (List.mem_cons_of_mem _ hy) hley

lemma Ix_eq_of_indices {st1 st2 : TarjanSt} (h : st1.indices = st2.indices)
    (w : String) : Ix st1 w ↔ Ix st2 w := by
  unfold Ix
  rw [h]

lemma num_eq_of_indices {st1 st2 : TarjanSt} (h : st1.indices = st2.indices)
    (w : String) : st1.num w = st2.num w := by
  unfold TarjanSt.num
  rw [h]

lemma low_eq_of_lowLink {st1 st2 : TarjanSt} (h : st1.lowLink = st2.lowLink)
    (w : String) : st1.low w = st2.low w := by
  unfold TarjanSt.low
  rw [h]

/-- The loop invariant on an empty pending list: nothing happens. -/
lemma LoopPost_nil {g : Graph} {gs : List String} {v : String} {st : TarjanSt}
    (hwf : WF g (v :: gs) st) (habs : Absorb (v :: gs) st) :
    LoopPost g gs v [] st st := by
  constructor
  case pres => exact fun w hw => ⟨hw, rfl, fun _ => rfl⟩
  case lowv => exact le_refl _
  case idx => exact le_refl _
  case fresh => exact fun w hw hnw => absurd hw hnw
  case stacksh => exact ⟨[], rfl, by simp⟩
  case sccsext => exact ⟨[], (List.append_nil _).symm⟩
  case unix => exact le_refl _
  case wf => exact hwf
  case absorb => exact habs
  case coh => exact fun z hz => absurd hz (List.not_mem_nil z)

/-- Loop invariants compose: one processed successor followed by the rest
of the list. -/
lemma LoopPost_compose {g : Graph} {gs : List String} {v w : String} {ws : List String}
    {st st2 st3 : TarjanSt}
    (h1 : LoopPost g gs v [w] st st2) (h2 : LoopPost g gs v ws st2 st3) :
    LoopPost g gs v (w :: ws) st st3 := by
  constructor
  case pres =>
      intro u hu
      obtain ⟨hix2, hnum2, hlow2⟩ := h1.pres u hu
      obtain ⟨hix3, hnum3, hlow3⟩ := h2.pres u hix2
      exact ⟨hix3, hnum3.trans hnum2, fun hne => (hlow3 hne).trans (hlow2 hne)⟩
  case lowv => exact le_trans h2.lowv h1.lowv
  case idx => exact le_trans h1.idx h2.idx
  case fresh =>
      intro u hu3 hnu
      by_cases hu2 : Ix st2 u
      · have := h1.fresh u hu2 hnu
        rw [(h2.pres u hu2).2.1]
        exact this
      · have := h2.fresh u hu3 hu2
        have h3 := h1.idx
        omega
  case stacksh =>
      obtain ⟨e1, he1, hf1⟩ := h1.stacksh
      obtain ⟨e2, he2, hf2⟩ := h2.stacksh
      refine ⟨e2 ++ e1, ?_, ?_⟩
      · rw [he2, he1, List.append_assoc]
      · intro z hz
        rcases List.mem_append.mp hz with h | h
        · intro hx
          exact hf2 z h ((h1.pres z hx).1)
        · exact hf1 z h
  case sccsext =>
      obtain ⟨g1, hg1⟩ := h1.sccsext
      obtain ⟨g2, hg2⟩ := h2.sccsext
      exact ⟨g1 ++ g2, by rw [hg2, hg1, List.append_assoc]⟩
  case unix => exact le_trans h2.unix h1.unix
  case wf => exact h2.wf
  case absorb => exact h2.absorb
  case coh =>
      intro z hz
      rcases List.mem_cons.mp hz with rfl | hzw
      · obtain ⟨hix2, hd⟩ := h1.coh z (List.mem_singleton_self z)
        obtain ⟨hix3, hnum3, hlow3⟩ := h2.pres z hix2
        refine ⟨hix3, ?_⟩
        rcases hd with h | h | ⟨hzg, hle⟩
        · refine Or.inl ?_
          obtain ⟨e2, he2, hf2⟩ := h2.stacksh
          rw [he2]
          intro hmem
          rcases List.mem_append.mp hmem with hm | hm
          · exact hf2 z hm hix2
          · exact h hm
        · refine Or.inr (Or.inl ?_)
          rw [hnum3]
          exact le_trans h2.lowv h
        · have hzv : z ≠ v := fun he => hzg (he ▸ List.mem_cons_self _ _)
          refine Or.inr (Or.inr ⟨hzg, ?_⟩)
          rw [hlow3 hzv]
          exact le_trans h2.lowv hle
      · exact h2.coh z hzw

/-- The neighbour loop of `strongconnect` preserves the invariant and
establishes the edge coherence of every processed successor, assuming the
recursive calls meet the `strongconnect` post-condition. -/
lemma scLoop_spec (g : Graph) (hC : Closed g) (f : Nat)
    (hrec : ∀ v st gs, WF g gs st → Absorb gs st → ¬ Ix st v → v ∈ g.nodeKeys →
      (gs = [] ∨ ∃ c gs2, gs = c :: gs2 ∧ stepRel g c v) → unIx g st ≤ f →
      ∃ st', strongconnect g f v st = some st' ∧ SCPost g gs st st' v)
    (v : String) (gs : List String) :
    ∀ ws st, (∀ w ∈ ws, stepRel g v w) → WF g (v :: gs) st → Absorb (v :: gs) st →
      unIx g st ≤ f →
      ∃ st', scLoop (fun w s => strongconnect g f w s) g v ws st = some st' ∧
        LoopPost g gs v ws st st' := by
  intro ws
  induction ws with
  | nil =>
      intro st hws hwf habs hfu
      exact ⟨st, rfl, LoopPost_nil hwf habs⟩
  | cons w ws ih =>
      intro st hws hwf habs hfu
      have hsw : stepRel g v w := hws w (List.mem_cons_self _ _)
      have hwstail : ∀ u ∈ ws, stepRel g v u := fun u hu => hws u (List.mem_cons_of_mem _ hu)
      have hvstack : v ∈ st.stack := hwf.grays_sub.subset (List.mem_cons_self _ _)
      have hvix : Ix st v := hwf.stack_ix v hvstack
      have hvdom : (alookup st.lowLink v).isSome := (hwf.low_dom v).mpr hvix
      cases hlk : alookup st.indices w with
      | some iw =>
          have hwix : Ix st w := Ix_of_lookup hlk
          have hnw : st.num w = iw := num_of_lookup hlk
          by_cases hon : w ∈ st.onStack
          · by_cases hlt : iw < st.low v
            · have hwstk : w ∈ st.stack := by
                rw [← hwf.onstack_eq]
                exact hon
              have hwf2 := WF_setLow (n := iw) hwf (le_of_lt hlt)
                ⟨w, hwstk, reach_step hsw, hnw⟩
              have habs2 := Absorb_setLow (n := iw) hwf habs (le_of_lt hlt)
              have hstep : LoopPost g gs v [w] st (setLow st v iw) := by
                constructor
                case pres =>
                    exact fun u hu => ⟨hu, rfl, fun hne => low_setLow_ne (Ne.symm hne)⟩
                case lowv =>
                    rw [low_setLow_self hvdom]
                    exact le_of_lt hlt
                case idx => exact le_refl _
                case fresh => exact fun u hu hnu => absurd hu hnu
                case stacksh => exact ⟨[], rfl, by simp⟩
                case sccsext => exact ⟨[], (List.append_nil _).symm⟩
                case unix => exact le_refl _
                case wf => exact hwf2
                case absorb => exact habs2
                case coh =>
                    intro z hz
                    rw [List.mem_singleton.mp hz]
                    refine ⟨hwix, Or.inr (Or.inl ?_)⟩
                    rw [low_setLow_self hvdom]
                    show iw ≤ st.num w
                    rw [hnw]
              obtain ⟨st', heq2, hpost2⟩ := ih (setLow st v iw) hwstail hwf2 habs2 hfu
              refine ⟨st', ?_, LoopPost_compose hstep hpost2⟩
              simp only [scLoop, hlk]
              rw [if_pos hon, if_pos hlt]
              exact heq2
            · have hstep : LoopPost g gs v [w] st st := by
                constructor
                case pres => exact fun u hu => ⟨hu, rfl, fun _ => rfl⟩
                case lowv => exact le_refl _
                case idx => exact le_refl _
                case fresh => exact fun u hu hnu => absurd hu hnu
                case stacksh => exact ⟨[], rfl, by simp⟩
                case sccsext => exact ⟨[], (List.append_nil _).symm⟩
                case unix => exact le_refl _
                case wf => exact hwf
                case absorb => exact habs
                case coh =>
                    intro z hz
                    rw [List.mem_singleton.mp hz]
                    refine ⟨hwix, Or.inr (Or.inl ?_)⟩
                    rw [hnw]
                    omega
              obtain ⟨st', heq2, hpost2⟩ := ih st hwstail hwf habs hfu
              refine ⟨st', ?_, LoopPost_compose hstep hpost2⟩
              simp only [scLoop, hlk]
              rw [if_pos hon, if_neg hlt]
              exact heq2
          · have hwnstk : w ∉ st.stack := by
              rw [← hwf.onstack_eq]
              exact hon
            have hstep : LoopPost g gs v [w] st st := by
              constructor
              case pres => exact fun u hu => ⟨hu, rfl, fun _ => rfl⟩
              case lowv => exact le_refl _
              case idx => exact le_refl _
              case fresh => exact fun u hu hnu => absurd hu hnu
              case stacksh => exact ⟨[], rfl, by simp⟩
              case sccsext => exact ⟨[], (List.append_nil _).symm⟩
              case unix => exact le_refl _
              case wf => exact hwf
              case absorb => exact habs
              case coh =>
                  intro z hz
                  rw [List.mem_singleton.mp hz]
                  exact ⟨hwix, Or.inl hwnstk⟩
            obtain ⟨st', heq2, hpost2⟩ := ih st hwstail hwf habs hfu
            refine ⟨st', ?_, LoopPost_compose hstep hpost2⟩
            simp only [scLoop, hlk]
            rw [if_neg hon]
            exact heq2
      | none =>
          have hnxw : ¬ Ix st w := not_Ix_of_lookup_none hlk
          have hwkeys : w ∈ g.nodeKeys := closed_succs hC hsw
          have hwnstk : w ∉ st.stack := fun h => hnxw (hwf.stack_ix w h)
          have hwvgs : w ∉ (v :: gs) := fun h => hwnstk (hwf.grays_sub.subset h)
          have hwvne : v ≠ w := fun he => hwvgs (by
            rw [← he]
            exact List.mem_cons_self v gs)
          obtain ⟨st1, hrec_eq, hpost⟩ :=
            hrec w st (v :: gs) hwf habs hnxw hwkeys (Or.inr ⟨v, gs, rfl, hsw⟩) hfu
          have hvix1 : Ix st1 v := (hpost.pres v hvix).1
          have hnum1v : st1.num v = st.num v := (hpost.pres v hvix).2.1
          have hlow1v : st1.low v = st.low v := (hpost.pres v hvix).2.2
          have hnumv_lt : st.num v < st.index := hwf.num_lt_index v hvix
          have hlowv_le : st.low v ≤ st.num v := hwf.low_le_num v hvix
          have hnum1w : st1.num w = st.index := hpost.numv
          have hwf1 : WF g (v :: gs) st1 := hpost.wf
          rcases hpost.branch with ⟨hnots, hloww, habs1⟩ | ⟨hins, habs1w⟩
          · have hncond : ¬ (st1.low w < st1.low v) := by
              rw [hloww, hlow1v]
              omega
            have hstep : LoopPost g gs v [w] st st1 := by
              constructor
              case pres =>
                  exact fun u hu => ⟨(hpost.pres u hu).1, (hpost.pres u hu).2.1,
                    fun _ => (hpost.pres u hu).2.2⟩
              case lowv => exact le_of_eq hlow1v
              case idx => exact le_of_lt hpost.idx
              case fresh => exact hpost.fresh
              case stacksh => exact hpost.stacksh
              case sccsext => exact hpost.sccsext
              case unix => exact le_of_lt hpost.unix
              case wf => exact hwf1
              case absorb => exact habs1
              case coh =>
                  intro z hz
                  rw [List.mem_singleton.mp hz]
                  exact ⟨hpost.ixv, Or.inl hnots⟩
            obtain ⟨st', heq2, hpost2⟩ :=
              ih st1 hwstail hwf1 habs1 (le_trans (le_of_lt hpost.unix) hfu)
            refine ⟨st', ?_, LoopPost_compose hstep hpost2⟩
            simp only [scLoop, hlk]
            simp only [hrec_eq]
            rw [if_neg hncond]
            exact heq2
          · by_cases hcond : st1.low w < st1.low v
            · have hvdom1 : (alookup st1.lowLink v).isSome := (hwf1.low_dom v).mpr hvix1
              have hlow2v : (setLow st1 v (st1.low w)).low v = st1.low w :=
                low_setLow_self hvdom1
              obtain ⟨u, hu, hru, hnu⟩ := hwf1.stack_low_witness w hins
              have hwf2 : WF g (v :: gs) (setLow st1 v (st1.low w)) :=
                WF_setLow hwf1 (le_of_lt hcond) ⟨u, hu, reach_head hsw hru, hnu⟩
              have habs2 : Absorb (v :: gs) (setLow st1 v (st1.low w)) := by
                refine Absorb_return hwf1 habs1w ?_ hwvgs rfl (fun x => rfl)
                  (le_of_eq hlow2v) ?_ (fun x hx => low_setLow_ne (Ne.symm hx))
                · rw [hnum1v, hnum1w]
                  exact hnumv_lt
                · rw [hlow2v]
                  exact le_of_lt hcond
              have hstep : LoopPost g gs v [w] st (setLow st1 v (st1.low w)) := by
                constructor
                case pres =>
                    intro u2 hu2
                    obtain ⟨h1, h2, h3⟩ := hpost.pres u2 hu2
                    exact ⟨h1, h2, fun hne => (low_setLow_ne (Ne.symm hne)).trans h3⟩
                case lowv =>
                    rw [hlow2v]
                    rw [hlow1v] at hcond
                    exact le_of_lt hcond
                case idx => exact le_of_lt hpost.idx
                case fresh => exact hpost.fresh
                case stacksh => exact hpost.stacksh
                case sccsext => exact hpost.sccsext
                case unix => exact le_of_lt hpost.unix
                case wf => exact hwf2
                case absorb => exact habs2
                case coh =>
                    intro z hz
                    rw [List.mem_singleton.mp hz]
                    refine ⟨hpost.ixv, Or.inr (Or.inr ⟨hwvgs, ?_⟩)⟩
                    rw [hlow2v, low_setLow_ne hwvne]
              obtain ⟨st', heq2, hpost2⟩ :=
                ih (setLow st1 v (st1.low w)) hwstail hwf2 habs2
                  (le_trans (le_of_lt hpost.unix) hfu)
              refine ⟨st', ?_, LoopPost_compose hstep hpost2⟩
              simp only [scLoop, hlk]
              simp only [hrec_eq]
              rw [if_pos hcond]
              exact heq2
            · have habs2 : Absorb (v :: gs) st1 := by
                refine Absorb_return hwf1 habs1w ?_ hwvgs rfl (fun x => rfl)
                  (le_of_not_lt hcond) (le_refl _) (fun x _ => rfl)
                rw [hnum1v, hnum1w]
                exact hnumv_lt
              have hstep : LoopPost g gs v [w] st st1 := by
                constructor
                case pres =>
                    exact fun u hu => ⟨(hpost.pres u hu).1, (hpost.pres u hu).2.1,
                      fun _ => (hpost.pres u hu).2.2⟩
                case lowv => exact le_of_eq hlow1v
                case idx => exact le_of_lt hpost.idx
                case fresh => exact hpost.fresh
                case stacksh => exact hpost.stacksh
                case sccsext => exact hpost.sccsext
                case unix => exact le_of_lt hpost.unix
                case wf => exact hwf1
                case absorb => exact habs2
                case coh =>
                    intro z hz
                    rw [List.mem_singleton.mp hz]
                    exact ⟨hpost.ixv, Or.inr (Or.inr ⟨hwvgs, le_of_not_lt hcond⟩)⟩
              obtain ⟨st', heq2, hpost2⟩ :=
                ih st1 hwstail hwf1 habs2 (le_trans (le_of_lt hpost.unix) hfu)
              refine ⟨st', ?_, LoopPost_compose hstep hpost2⟩
              simp only [scLoop, hlk]
              simp only [hrec_eq]
              rw [if_neg hcond]
              exact heq2

/-- The `strongconnect` call meets its post-condition whenever the fuel
dominates the number of unindexed nodes. -/
lemma strongconnect_spec (g : Graph) (hC : Closed g) (hnd : g.nodeKeys.Nodup) :
    ∀ f : Nat, ∀ v st gs, WF g gs st → Absorb gs st → ¬ Ix st v → v ∈ g.nodeKeys →
      (gs = [] ∨ ∃ c gs2, gs = c :: gs2 ∧ stepRel g c v) → unIx g st ≤ f →
      ∃ st', strongconnect g f v st = some st' ∧ SCPost g gs st st' v := by
  intro f
  induction f with
  | zero =>
      intro v st gs _ _ hnx hvk _ hfu
      exfalso
      have := unIx_pos hvk hnx
      omega
  | succ f ihf =>
      intro v st gs hwf habs hnx hvk hcall hfu
      obtain ⟨hwfp, habsp⟩ := WF_pushNode hwf habs hnx hvk hcall
      have hpush := unIx_pushNode hvk hnd hnx
      have hfup : unIx g (pushNode v st) ≤ f := by omega
      have hvixp : Ix (pushNode v st) v := Ix_pushNode.mpr (Or.inl rfl)
      obtain ⟨st1, hleq, hlp⟩ :=
        scLoop_spec g hC f ihf v gs (g.succs v) (pushNode v st) (fun w h => h) hwfp habsp hfup
      have hIxv1 : Ix st1 v := (hlp.pres v hvixp).1
      have hnum1 : st1.num v = st.index := by
        rw [(hlp.pres v hvixp).2.1, num_pushNode_self]
      have hsucc1 : ∀ z, stepRel g v z → Ix st1 z ∧ (z ∉ st1.stack ∨
          st1.low v ≤ st1.num z ∨ (z ∉ (v :: gs) ∧ st1.low v ≤ st1.low z)) :=
        fun z hz => hlp.coh z hz
      have hvnst : v ∉ st.stack := fun h => hnx (hwf.stack_ix v h)
      obtain ⟨ext, hext, hfreshext⟩ := hlp.stacksh
      have hsplit : st1.stack = ext ++ v :: st.stack := hext
      have hvnotext : v ∉ ext := fun h => hfreshext v h hvixp
      have hidxp : (pushNode v st).index = st.index + 1 := rfl
      by_cases hroot : st1.low v = st1.num v
      · obtain ⟨hwf2, habs2, hstk2, hind2, hlow2, hidx2, gr2, hsccs2⟩ :=
          WF_popState hlp.wf hlp.absorb hsucc1 hroot hsplit hvnotext
        refine ⟨popState g v st1, ?_, ?_⟩
        · simp only [strongconnect]
          simp only [hleq]
          rw [if_pos hroot]
        · refine ⟨?_, ?_, ?_, ?_, ?_, ?_, ?_, ?_, ?_, ?_⟩
          · intro u hu
            have hup : Ix (pushNode v st) u := Ix_pushNode.mpr (Or.inr hu)
            obtain ⟨h1, h2, h3⟩ := hlp.pres u hup
            have hneu : v ≠ u := fun he => hnx (he ▸ hu)
            refine ⟨(Ix_eq_of_indices hind2 u).mpr h1, ?_, ?_⟩
            · rw [num_eq_of_indices hind2 u, h2, num_pushNode_ne st hneu]
            · rw [low_eq_of_lowLink hlow2 u, h3 (Ne.symm hneu), low_pushNode_ne st hneu]
          · exact (Ix_eq_of_indices hind2 v).mpr hIxv1
          · rw [num_eq_of_indices hind2 v, hnum1]
          · have h1 := hlp.idx
            omega
          · intro u hu hnu
            have hu1 : Ix st1 u := (Ix_eq_of_indices hind2 u).mp hu
            by_cases huv : u = v
            · rw [huv, num_eq_of_indices hind2 v, hnum1]
            · have hnup : ¬ Ix (pushNode v st) u := by
                rw [Ix_pushNode]
                rintro (he | hIx)
                · exact huv he.symm
                · exact hnu hIx
              have := hlp.fresh u hu1 hnup
              rw [num_eq_of_indices hind2 u]
              omega
          · refine ⟨[], ?_, by simp⟩
            rw [hstk2, List.nil_append]
          · obtain ⟨gr1, hgr1⟩ := hlp.sccsext
            refine ⟨gr1 ++ gr2, ?_⟩
            rw [hsccs2, hgr1, List.append_assoc]
            rfl
          · have h1 : unIx g (popState g v st1) = unIx g st1 := unIx_congr hind2
            have h2 := hlp.unix
            omega
          · exact hwf2
          · refine Or.inl ⟨?_, ?_, habs2⟩
            · rw [hstk2]
              exact hvnst
            · rw [low_eq_of_lowLink hlow2 v, hroot, hnum1]
      · have hlow_le : st1.low v ≤ st1.num v := hlp.wf.low_le_num v hIxv1
        have hlow_lt : st1.low v < st1.num v := lt_of_le_of_ne hlow_le hroot
        have hvins : v ∈ st1.stack := hlp.wf.grays_sub.subset (List.mem_cons_self _ _)
        refine ⟨st1, ?_, ?_⟩
        · simp only [strongconnect]
          simp only [hleq]
          rw [if_neg hroot]
        · have hwfgs : WF g gs st1 := by
            cases gs with
            | nil =>
                exfalso
                obtain ⟨u, hu, hru, hnu⟩ := hlp.wf.stack_low_witness v hvins
                obtain ⟨x, hx, hnxu, hrx, hmaxx⟩ := hlp.wf.stack_reach_gray u hu
                have hxv : x = v := List.mem_singleton.mp hx
                subst hxv
                omega
            | cons c gs2 => exact WF_ungray hlp.wf hsucc1 hlow_lt
          refine ⟨?_, ?_, ?_, ?_, ?_, ?_, ?_, ?_, ?_, ?_⟩
          · intro u hu
            have hup : Ix (pushNode v st) u := Ix_pushNode.mpr (Or.inr hu)
            obtain ⟨h1, h2, h3⟩ := hlp.pres u hup
            have hneu : v ≠ u := fun he => hnx (he ▸ hu)
            refine ⟨h1, ?_, ?_⟩
            · rw [h2, num_pushNode_ne st hneu]
            · rw [h3 (Ne.symm hneu), low_pushNode_ne st hneu]
          · exact hIxv1
          · exact hnum1
          · have h1 := hlp.idx
            omega
          · intro u hu hnu
            by_cases huv : u = v
            · rw [huv, hnum1]
            · have hnup : ¬ Ix (pushNode v st) u := by
                rw [Ix_pushNode]
                rintro (he | hIx)
                · exact huv he.symm
                · exact hnu hIx
              have := hlp.fresh u hu hnup
              omega
          · refine ⟨ext ++ [v], ?_, ?_⟩
            · rw [hsplit, List.append_assoc]
              rfl
            · intro z hz
              rcases List.mem_append.mp hz with h | h
              · intro hIx
                exact hfreshext z h (Ix_pushNode.mpr (Or.inr hIx))
              · rw [List.mem_singleton.mp h]
                exact hnx
          · exact hlp.sccsext
          · have h2 := hlp.unix
            omega
          · exact hwfgs
          · exact Or.inr ⟨hvins, hlp.absorb⟩

/-- With no active call, the invariant forces an empty stack. -/
lemma stack_empty_of_WF_nil {g : Graph} {st : TarjanSt} (hwf : WF g [] st) :
    st.stack = [] := by
  cases h : st.stack with
  | nil => rfl
  | cons a l =>
      exfalso
      obtain ⟨x, hx, _⟩ := hwf.stack_reach_gray a (by
        rw [h]
        exact List.mem_cons_self a l)
      exact List.not_mem_nil x hx

/-- The invariant holds in the initial state of `CheckCycles`. -/
lemma WF_init (g : Graph) :
    WF g [] { index := 0, stack := [], indices := [], lowLink := [], onStack := [], sccs := [] } ∧
    Absorb [] { index := 0, stack := [], indices := [], lowLink := [], onStack := [], sccs := [] } := by
  have hnix : ∀ w, ¬ Ix { index := 0, stack := [], indices := [], lowLink := [], onStack := [], sccs := ([] : List (List String)) } w := by
    intro w
    unfold Ix alookup
    simp
  refine ⟨?_, ?_⟩
  · constructor
    case onstack_eq => rfl
    case stack_ix =>
        intro w hw
        exact absurd hw (List.not_mem_nil w)
    case stack_sorted => exact List.Pairwise.nil
    case ix_keys =>
        intro w hw
        exact absurd hw (hnix w)
    case low_dom =>
        intro w
        constructor
        · intro h
          exact absurd h (by
            unfold alookup
            simp)
        · intro h
          exact absurd h (hnix w)
    case num_lt_index =>
        intro w hw
        exact absurd hw (hnix w)
    case num_inj =>
        intro w1 w2 h1 _ _
        exact absurd h1 (hnix w1)
    case grays_sub => exact List.nil_sublist _
    case grays_chain => exact List.chain'_nil
    case stack_reach_gray =>
        intro w hw
        exact absurd hw (List.not_mem_nil w)
    case gray_reach_ix =>
        intro x hx
        exact absurd hx (List.not_mem_nil x)
    case fin_succ_ix =>
        intro w hw
        exact absurd hw (hnix w)
    case popped_closed =>
        intro w hw
        exact absurd hw (hnix w)
    case low_le_num =>
        intro w hw
        exact absurd hw (hnix w)
    case stack_low_witness =>
        intro w hw
        exact absurd hw (List.not_mem_nil w)
    case fin_edge_coh =>
        intro w hw
        exact absurd hw (hnix w)
    case sccs_quality =>
        intro S hS
        exact absurd hS (List.not_mem_nil S)
    case popped_rec =>
        intro w hw
        exact absurd hw (hnix w)
  · intro w hw
    exact absurd hw (List.not_mem_nil w)

/-- The driver loop of `CheckCycles` indexes every listed node and keeps
the invariant. -/
lemma tarjanFold_spec (g : Graph) (hC : Closed g) (hnd : g.nodeKeys.Nodup) :
    ∀ nodes : List (String × Node), ∀ st, (∀ p ∈ nodes, p.1 ∈ g.nodeKeys) →
      WF g [] st → Absorb [] st →
      ∃ st', tarjanFold g nodes st = some st' ∧ WF g [] st' ∧
        (∀ w, Ix st w → Ix st' w) ∧ (∀ p ∈ nodes, Ix st' p.1) ∧
        Absorb [] st' := by
  intro nodes
  induction nodes with
  | nil =>
      intro st _ hwf habs
      exact ⟨st, rfl, hwf, fun w h => h, by simp, habs⟩
  | cons p rest ih =>
      intro st hkeys hwf habs
      obtain ⟨id, nd⟩ := p
      cases hlk : alookup st.indices id with
      | some i =>
          obtain ⟨st', heq, hwf', hpres, hall, habs'⟩ :=
            ih st (fun q hq => hkeys q (List.mem_cons_of_mem _ hq)) hwf habs
          refine ⟨st', ?_, hwf', hpres, ?_, habs'⟩
          · simp only [tarjanFold, hlk]
            exact heq
          · intro q hq
            rcases List.mem_cons.mp hq with rfl | hq
            · exact hpres id (Ix_of_lookup hlk)
            · exact hall q hq
      | none =>
          have hfu : unIx g st ≤ tarjanFuel g := by
            have h1 := unIx_le_keys g st
            have h2 : g.nodeKeys.length = g.nodes.length := List.length_map _ _
            unfold tarjanFuel
            omega
          obtain ⟨st1, heq1, hpost⟩ :=
            strongconnect_spec g hC hnd (tarjanFuel g) id st [] hwf habs
              (not_Ix_of_lookup_none hlk)
              (hkeys (id, nd) (List.mem_cons_self _ _))
              (Or.inl rfl) hfu
          have hwf1 : WF g [] st1 := hpost.wf
          have habs1 : Absorb [] st1 := by
            rcases hpost.branch with ⟨_, _, h⟩ | ⟨hmem, _⟩
            · exact h
            · exfalso
              rw [stack_empty_of_WF_nil hwf1] at hmem
              exact List.not_mem_nil id hmem
          obtain ⟨st', heq2, hwf', hpres, hall, habs'⟩ :=
            ih st1 (fun q hq => hkeys q (List.mem_cons_of_mem _ hq)) hwf1 habs1
          refine ⟨st', ?_, hwf', ?_, ?_, habs'⟩
          · simp only [tarjanFold, hlk]
            simp only [heq1]
            exact heq2
          · exact fun w h => hpres w (hpost.pres w h).1
          · intro q hq
            rcases List.mem_cons.mp hq with rfl | hq
            · exact hpres id hpost.ixv
            · exact hall q hq

end Lemmas

section Claims

/-- C1: `CheckCycles` reports exactly the non-trivial strongly connected
components: on every graph whose edge targets are all nodes and whose node
keys are duplicate-free, it succeeds, every reported component is a
duplicate-free list whose members are exactly the SCC of one of its
elements and which has more than one node or a self-loop, and every node
lying on a genuine cycle (an SCC with a second member, or a self-loop)
appears in some reported component.  In particular the triangle A→B, B→C,
C→A yields exactly one SCC with node set \x7bA,B,C\x7d, the self-loop graph
yields exactly \x7bA\x7d, and the acyclic chain yields no SCC. -/
theorem C1_checkCycles (g : Graph) (hC : Closed g) (hnd : g.nodeKeys.Nodup) :
    (∃ out, g.checkCycles = some out ∧
      (∀ S ∈ out, ∃ r ∈ S, S.Nodup ∧ (∀ w, w ∈ S ↔ InSCC g r w) ∧
        (1 < S.length ∨ stepRel g r r)) ∧
      (∀ w ∈ g.nodeKeys, ((∃ z, z ≠ w ∧ InSCC g w z) ∨ stepRel g w w) →
        ∃ S ∈ out, w ∈ S)) ∧
    (∃ out, gTriangle.checkCycles = some out ∧ out.length = 1 ∧
      ∀ S ∈ out, S.Perm ["public.A", "public.B", "public.C"]) ∧
    gSelfLoop.checkCycles = some [["public.A"]] ∧
    gChain.checkCycles = some [] := by
  refine ⟨?_, ?_, ?_, ?_⟩
  · obtain ⟨hwf0, habs0⟩ := WF_init g
    obtain ⟨st', heq, hwf', hpres, hall, habs'⟩ :=
      tarjanFold_spec g hC hnd g.nodes
        { index := 0, stack := [], indices := [], lowLink := [], onStack := [], sccs := [] }
        (fun p hp => List.mem_map_of_mem _ hp) hwf0 habs0
    refine ⟨st'.sccs, ?_, ?_, ?_⟩
    · unfold Graph.checkCycles
      rw [heq]
      rfl
    · intro S hS
      exact hwf'.sccs_quality S hS
    · intro w hw hcyc
      obtain ⟨p, hp, hpw⟩ := List.mem_map.mp hw
      have hIx : Ix st' w := hpw ▸ hall p hp
      have hstk : st'.stack = [] := stack_empty_of_WF_nil hwf'
      have hrec := hwf'.popped_rec w hIx (by
        rw [hstk]
        exact List.not_mem_nil w)
      rcases hrec with ⟨S, hS, hwS⟩ | ⟨hnsl, huniq⟩
      · exact ⟨S, hS, hwS⟩
      · exfalso
        rcases hcyc with ⟨z, hzw, hz⟩ | hl
        · exact hzw (huniq z hz)
        · exact hnsl hl
  · exact ⟨[["public.C", "public.B", "public.A"]], by decide, by decide, by decide⟩
  · decide
  · decide

/-- Witness for C1: the triangle graph satisfies the closedness and
duplicate-freeness hypotheses, and the general statement applies to it. -/
theorem C1_checkCycles_witness :
    Closed gTriangle ∧ gTriangle.nodeKeys.Nodup ∧
    (∃ out, gTriangle.checkCycles = some out ∧
      (∀ S ∈ out, ∃ r ∈ S, S.Nodup ∧ (∀ w, w ∈ S ↔ InSCC gTriangle r w) ∧
        (1 < S.length ∨ stepRel gTriangle r r)) ∧
      (∀ w ∈ gTriangle.nodeKeys,
        ((∃ z, z ≠ w ∧ InSCC gTriangle w z) ∨ stepRel gTriangle w w) →
        ∃ S ∈ out, w ∈ S)) :=
  ⟨by decide, by decide, (C1_checkCycles gTriangle (by decide) (by decide)).1⟩

/-- C2: on the test graph with nodes A, B, C, D and edges A→B, B→C, D→B,
`GetDownstream` of C is exactly the set \x7bA, B, D\x7d and `GetDownstream`
of B is exactly \x7bA, D\x7d, with C excluded from the result for B. -/
theorem C2_getDownstream_example :
    (gDownTest.getDownstream "public.C").Perm ["public.A", "public.B", "public.D"] ∧
    (gDownTest.getDownstream "public.B").Perm ["public.A", "public.D"] ∧
    "public.C" ∉ gDownTest.getDownstream "public.B" := by
  decide

/-- C3 as stated is false on cyclic graphs: in the two-node cycle B⇄A
(node map iterating B first), the memoized search records depth 1 for A,
yet the directed path A→B has 2 nodes, so the computed depth is not the
number of nodes on the longest path starting at A. -/
theorem C3_depth_cycle_counterexample :
    gCyc2.depthOf "public.A" = some 1 ∧
    ∃ p, ChainFrom gCyc2 "public.A" p ∧ 1 < p.length :=
  ⟨by decide, ["public.A", "public.B"],
    ⟨List.chain'_cons.mpr ⟨by decide, List.chain'_singleton _⟩, rfl⟩, by decide⟩

/-- C3 amended: on every acyclic graph (with every edge target present as
a node), the depth recorded for each node by `AnalyzeTopology`'s memoized
depth-first search is exactly the number of nodes on the longest directed
path starting at that node, and the reported `LongestPath` is the maximum
of these values: it bounds every directed path from every node and is
attained by one whenever the graph is nonempty. -/
theorem C3_depth_correct_on_dag (g : Graph) (hC : Closed g) (hA : Acyclic g) :
    (∀ n ∈ g.nodeKeys, ∃ d, g.depthOf n = some d ∧ DepthGood g n d) ∧
    (∃ M, g.longestPath = some M ∧
      (∀ n ∈ g.nodeKeys, ∀ p, ChainFrom g n p → p.length ≤ M) ∧
      (M = 0 ∨ ∃ n ∈ g.nodeKeys, ∃ p, ChainFrom g n p ∧ p.length = M)) := by
  obtain ⟨M, fm, heq, hok, hpres, hmp, hentries, hatt⟩ :=
    analyzeFold_dag g hC hA g.nodes 0 []
      (fun p hp => List.mem_map_of_mem _ hp)
      (fun x d hx => by simp [alookup] at hx)
  constructor
  · intro n hn
    rcases List.mem_map.mp hn with ⟨p, hp, rfl⟩
    obtain ⟨d, hd, _⟩ := hentries p hp
    refine ⟨d, ?_, hok _ _ hd⟩
    simp only [Graph.depthOf, Graph.analyzeLongest, heq]
    exact hd
  · refine ⟨M, ?_, ?_, ?_⟩
    · simp only [Graph.longestPath, Graph.analyzeLongest, heq]
      rfl
    · intro n hn p hp
      rcases List.mem_map.mp hn with ⟨q, hq, rfl⟩
      obtain ⟨d, hd, hdM⟩ := hentries q hq
      exact le_trans ((hok _ _ hd).1 p hp) hdM
    · rcases hatt with rfl | ⟨q, hq, hlook⟩
      · exact Or.inl rfl
      · rcases (hok _ _ hlook).2 with ⟨p, hp, hlen⟩
        exact Or.inr ⟨q.1, List.mem_map_of_mem _ hq, p, hp, hlen⟩

/-- Witness for C3 (amended) at a concrete input: the two-node graph with
the single edge A→B is closed and acyclic, and the theorem yields the
exact depth of A. -/
theorem C3_depth_correct_on_dag_witness :
    Closed gDag ∧ Acyclic gDag ∧
    ∃ d, gDag.depthOf "public.A" = some d ∧ DepthGood gDag "public.A" d := by
  refine ⟨by decide, gDag_acyclic, ?_⟩
  exact (C3_depth_correct_on_dag gDag (by decide) gDag_acyclic).1 "public.A" (by decide)

/-- C4: the strict chain A→B→C→D→E reports a longest chain of exactly 5,
and with the back-edge E→A added the search still terminates (the model's
fuel, mirroring the on-current-path cycle guard of the Go recursion, is
not exhausted, so the result is `some`) and reports a finite length ≤ 5. -/
theorem C4_chain_and_backedge :
    gChain.longestPath = some 5 ∧
    ∃ k, gChainCycle.longestPath = some k ∧ k ≤ 5 := by
  refine ⟨by decide, 5, by decide, by decide⟩

/-- C5 as stated is false on the code in two ways.  First, the cascade
check tests only `deleteRule == "CASCADE"` and not the edge type: in `gC5`
the only arrival edge has type `ViewDepends`, yet a cascade warning is
synthesized.  Second, the row-count note uses the expanded (parent) node's
row count, not the child's: in `gC5b` the child C has 2000 rows (> 1000)
but the warning carries no row-count note because the parent T has none. -/
theorem C5_cascade_counterexample :
    (gC5.impactWarnings "public.T" = some [Warning.cascade "public.T" "public.V" none] ∧
     gC5.impactEvents "public.T" =
       some [⟨"public.T", 0,
         { sourceID := "public.V", targetID := "public.T",
           type := DependencyType.ViewDepends, constraintName := "dep",
           deleteRule := "CASCADE", metaData := [] }⟩] ∧
     DependencyType.ViewDepends ≠ DependencyType.ForeignKey) ∧
    (gC5b.impactWarnings "public.T" = some [Warning.cascade "public.T" "public.C" none] ∧
     (gC5b.nodeAt "public.C").rowCount = 2000 ∧ (1000 : Int) < 2000) := by
  decide

/-- C5 amended: during impact-tree expansion a cascade warning is
synthesized when, and only when, a not-yet-visited dependent is reached
over an arrival edge whose `deleteRule` equals `CASCADE` (whatever the
edge's type); the warning has High severity, names the expanded parent and
the dependent child, and includes the approximate row count exactly when
the parent's row count exceeds 1000.  Formally: the cascade warnings of
the traversal are exactly one `cascadeOf` warning per recorded expansion
event whose arrival edge has delete rule `CASCADE`, in discovery order. -/
theorem C5_cascade_warnings (g : Graph) (rootID : String) (evs : List ExpandEvent)
    (h : g.impactEvents rootID = some evs) :
    ∃ ws, g.impactWarnings rootID = some ws ∧
      ws.filter Warning.isCascade =
        (evs.filter (fun e => decide (e.edge.deleteRule = "CASCADE"))).map (cascadeOf g) := by
  unfold Graph.impactEvents at h
  cases ht : impactTrace g g.reverseEdges (g.edgeCount + 2) rootID 0 [] with
  | none => rw [ht] at h; exact absurd h (by simp)
  | some r =>
      obtain ⟨evs0, vis⟩ := r
      rw [ht] at h
      simp only [Option.map_some', Option.some.injEq] at h
      subst h
      obtain ⟨t, hbt⟩ :=
        buildTree_trace g g.reverseEdges (g.edgeCount + 2) rootID 0 [] [] evs0 vis ht
      refine ⟨evs0.bind (eventWarnings g), ?_, bind_filter_cascade g evs0⟩
      unfold Graph.impactWarnings
      rw [hbt]
      simp

/-- Witness for C5 (amended) at a concrete input: on `gC5` the traversal
records one expansion event with delete rule `CASCADE`, and the cascade
warnings are exactly its `cascadeOf` warning. -/
theorem C5_cascade_warnings_witness :
    ∃ ws, gC5.impactWarnings "public.T" = some ws ∧
      ws.filter Warning.isCascade =
        (([⟨"public.T", 0,
            { sourceID := "public.V", targetID := "public.T",
              type := DependencyType.ViewDepends, constraintName := "dep",
              deleteRule := "CASCADE", metaData := [] }⟩] : List ExpandEvent).filter
          (fun e => decide (e.edge.deleteRule = "CASCADE"))).map (cascadeOf gC5) :=
  C5_cascade_warnings gC5 "public.T" _ (by decide)

/-- C6 as stated is false on the code: the view-coupling check tests
`level >= 2` where `level` is the level of the node being expanded, so a
`ViewDepends` arrival edge whose dependent is reached at depth 2 (parent at
level 1) produces no warning.  In `gC6` the view V is reached at depth 2
(the recorded event has parent level 1) and the warning list is empty. -/
theorem C6_view_counterexample :
    gC6.impactWarnings "public.T" = some [] ∧
    gC6.impactEvents "public.T" =
      some [⟨"public.A", 1,
        { sourceID := "public.V", targetID := "public.A",
          type := DependencyType.ViewDepends, constraintName := "dep",
          deleteRule := "NO ACTION", metaData := [] }⟩,
        ⟨"public.T", 0,
        { sourceID := "public.A", targetID := "public.T",
          type := DependencyType.ForeignKey, constraintName := "fk",
          deleteRule := "NO ACTION", metaData := [] }⟩] := by
  decide

/-- C6 amended: during impact-tree expansion a Medium view-coupling
warning is produced for an arrival edge of type `ViewDepends` exactly when
the expanded (parent) node sits at level ≥ 2, i.e. when the dependent view
is reached at depth ≥ 3; in particular no view-coupling warning is
produced at depth 1 or 2.  Formally: the view-coupling warnings of the
traversal are exactly one warning per recorded expansion event whose
arrival edge has type `ViewDepends` and whose parent level is ≥ 2. -/
theorem C6_view_warnings (g : Graph) (rootID : String) (evs : List ExpandEvent)
    (h : g.impactEvents rootID = some evs) :
    ∃ ws, g.impactWarnings rootID = some ws ∧
      ws.filter Warning.isViewCoupling =
        (evs.filter (fun e =>
            decide (e.edge.type = DependencyType.ViewDepends ∧ 2 ≤ e.level))).map
          (fun e => Warning.viewCoupling e.edge.sourceID e.level) := by
  unfold Graph.impactEvents at h
  cases ht : impactTrace g g.reverseEdges (g.edgeCount + 2) rootID 0 [] with
  | none => rw [ht] at h; exact absurd h (by simp)
  | some r =>
      obtain ⟨evs0, vis⟩ := r
      rw [ht] at h
      simp only [Option.map_some', Option.some.injEq] at h
      subst h
      obtain ⟨t, hbt⟩ :=
        buildTree_trace g g.reverseEdges (g.edgeCount + 2) rootID 0 [] [] evs0 vis ht
      refine ⟨evs0.bind (eventWarnings g), ?_, bind_filter_view g evs0⟩
      unfold Graph.impactWarnings
      rw [hbt]
      simp

/-- Witness for C6 (amended) at a concrete input: on `gC6b` the view V is
reached with its parent at level 2 and the view-coupling warnings are
exactly its warning. -/
theorem C6_view_warnings_witness :
    ∃ ws, gC6b.impactWarnings "public.T" = some ws ∧
      ws.filter Warning.isViewCoupling =
        (([⟨"public.B", 2,
            { sourceID := "public.V", targetID := "public.B",
              type := DependencyType.ViewDepends, constraintName := "dep",
              deleteRule := "NO ACTION", metaData := [] }⟩,
           ⟨"public.A", 1,
            { sourceID := "public.B", targetID := "public.A",
              type := DependencyType.ForeignKey, constraintName := "fk2",
              deleteRule := "NO ACTION", metaData := [] }⟩,
           ⟨"public.T", 0,
            { sourceID := "public.A", targetID := "public.T",
              type := DependencyType.ForeignKey, constraintName := "fk1",
              deleteRule := "NO ACTION", metaData := [] }⟩] : List ExpandEvent).filter
          (fun e =>
            decide (e.edge.type = DependencyType.ViewDepends ∧ 2 ≤ e.level))).map
          (fun e => Warning.viewCoupling e.edge.sourceID e.level) :=
  C6_view_warnings gC6b "public.T" _ (by decide)

/-- C7: `CheckIndexCoverage` counts a ForeignKey edge as covered if and
only if the source node has some index whose column sequence has the
edge's foreign-key metadata columns as an exact ordered prefix; an edge
whose usable `fk_columns` metadata is absent is neither counted as covered
nor listed; and (for graphs satisfying the node-map invariant that edge
sources exist) every uncovered foreign key is listed, in the
`source (cols) -> target` format carrying its source id, column list and
target id. -/
theorem C7_index_coverage (g : Graph)
    (hsrc : ∀ e ∈ g.allEdges, e.type = DependencyType.ForeignKey →
      (alookup g.nodes e.sourceID).isSome) :
    g.checkIndexCoverage.indexedFKs = (g.allEdges.filter (fkCovered g)).length ∧
    g.checkIndexCoverage.missingFKIndexes =
      (g.allEdges.filter (fkMissing g)).map missingEntry ∧
    g.checkIndexCoverage.totalFKs =
      (g.allEdges.filter (fun e => decide (e.type = DependencyType.ForeignKey))).length ∧
    (∀ e ∈ g.allEdges, e.type = DependencyType.ForeignKey → ∀ cols,
      fkUsableMeta e = some cols →
      (fkCovered g e = true ↔
        ∃ idx ∈ (g.nodeAt e.sourceID).indexes, CoversSpec idx (cols.splitOn ","))) ∧
    (∀ e ∈ g.allEdges, e.type = DependencyType.ForeignKey → fkUsableMeta e = none →
      fkCovered g e = false ∧ fkMissing g e = false) ∧
    (∀ e ∈ g.allEdges, e.type = DependencyType.ForeignKey → ∀ cols,
      fkUsableMeta e = some cols → fkCovered g e = false →
      missingEntry e ∈ g.checkIndexCoverage.missingFKIndexes) := by
  have hfold :
      g.checkIndexCoverage = g.allEdges.foldl (checkFKEdge g)
        { missingFKIndexes := [], totalFKs := 0, indexedFKs := 0 } := by
    unfold Graph.checkIndexCoverage Graph.allEdges
    exact foldl_bind_eq _ _ _ _
  obtain ⟨htot, hidx, hmiss⟩ :=
    checkFold g g.allEdges { missingFKIndexes := [], totalFKs := 0, indexedFKs := 0 }
  have hcov_iff : ∀ e ∈ g.allEdges, e.type = DependencyType.ForeignKey → ∀ cols,
      fkUsableMeta e = some cols →
      (fkCovered g e = true ↔
        ∃ idx ∈ (g.nodeAt e.sourceID).indexes, CoversSpec idx (cols.splitOn ",")) := by
    intro e he ht cols hm
    have hs := hsrc e he ht
    unfold fkCovered fkExamined
    simp only [ht, hm, hs, decide_eq_true_eq]
    simp [hasCoveringIndex_iff]
  refine ⟨?_, ?_, ?_, hcov_iff, ?_, ?_⟩
  · rw [hfold, hidx]
    simp [List.countP_eq_length_filter]
  · rw [hfold, hmiss]
    simp
  · rw [hfold, htot]
    simp [List.countP_eq_length_filter]
  · intro e he ht hm
    unfold fkCovered fkMissing fkExamined
    simp [hm]
  · intro e he ht cols hm hcov
    have hs := hsrc e he ht
    have hex : fkExamined g e = true := by
      unfold fkExamined
      simp [ht, hm, hs]
    have hnc : hasCoveringIndex (g.nodeAt e.sourceID).indexes (cols.splitOn ",") = false := by
      unfold fkCovered at hcov
      rw [hex, Bool.true_and] at hcov
      simpa [hm] using hcov
    have hmem : e ∈ g.allEdges.filter (fkMissing g) := by
      rw [List.mem_filter]
      refine ⟨he, ?_⟩
      unfold fkMissing
      rw [hex, Bool.true_and]
      simp [hm, hnc]
    rw [hfold, hmiss]
    simp only [List.nil_append]
    exact List.mem_map_of_mem missingEntry hmem

/-- Witness for C7 at a concrete input: on `gC7` (one covered and one
uncovered foreign key) the hypothesis holds and the counts and the missing
list match the filter characterization. -/
theorem C7_index_coverage_witness :
    (∀ e ∈ gC7.allEdges, e.type = DependencyType.ForeignKey →
      (alookup gC7.nodes e.sourceID).isSome) ∧
    gC7.checkIndexCoverage.indexedFKs = (gC7.allEdges.filter (fkCovered gC7)).length ∧
    gC7.checkIndexCoverage.missingFKIndexes =
      (gC7.allEdges.filter (fkMissing gC7)).map missingEntry :=
  ⟨by decide, (C7_index_coverage gC7 (by decide)).1,
    (C7_index_coverage gC7 (by decide)).2.1⟩

/-- C8: immediately after `AddEdge`, both endpoint ids exist in the node
map, and an endpoint that was absent beforehand was created as a
placeholder node of type `Table` with empty size and zero row count. -/
theorem C8_addEdge_endpoints_exist (g : Graph)
    (ss sn ts tn : String) (dt : DependencyType) (cn dr : String) :
    (alookup (g.addEdge ss sn ts tn dt cn dr).nodes (ss ++ "." ++ sn)).isSome ∧
    (alookup (g.addEdge ss sn ts tn dt cn dr).nodes (ts ++ "." ++ tn)).isSome ∧
    (alookup g.nodes (ss ++ "." ++ sn) = none →
      ∃ n, alookup (g.addEdge ss sn ts tn dt cn dr).nodes (ss ++ "." ++ sn) = some n ∧
        n.type = NodeType.Table ∧ n.size = "" ∧ n.rowCount = 0) ∧
    (alookup g.nodes (ts ++ "." ++ tn) = none →
      ∃ n, alookup (g.addEdge ss sn ts tn dt cn dr).nodes (ts ++ "." ++ tn) = some n ∧
        n.type = NodeType.Table ∧ n.size = "" ∧ n.rowCount = 0) := by
  have hnodes : (g.addEdge ss sn ts tn dt cn dr).nodes =
      ((g.ensureNode ss sn).ensureNode ts tn).nodes := rfl
  rw [hnodes]
  refine ⟨?_, ?_, ?_, ?_⟩
  · cases h : alookup (g.ensureNode ss sn).nodes (ss ++ "." ++ sn) with
    | none =>
        have := ensureNode_isSome_self g ss sn
        rw [h] at this
        exact absurd this (by simp)
    | some v => rw [ensureNode_preserves ts tn h]; rfl
  · exact ensureNode_isSome_self _ ts tn
  · intro h
    rcases ensureNode_of_absent ss sn (g := g) (x := ss ++ "." ++ sn) h with h1 | h1
    · have := ensureNode_isSome_self g ss sn
      rw [h1] at this
      exact absurd this (by simp)
    · exact ⟨_, ensureNode_preserves ts tn h1, rfl, rfl, rfl⟩
  · intro h
    rcases ensureNode_of_absent ss sn (g := g) (x := ts ++ "." ++ tn) h with h1 | h1
    · exact ⟨_, ensureNode_absent ts tn h1, rfl, rfl, rfl⟩
    · rw [ensureNode_preserves ts tn h1]
      exact ⟨_, rfl, rfl, rfl, rfl⟩

/-- Witness for C8 at a concrete input: adding an edge to the empty graph
creates both endpoints as placeholder `Table` nodes. -/
theorem C8_addEdge_endpoints_exist_witness :
    (∃ n, alookup (newGraph.addEdge "public" "A" "public" "B"
        DependencyType.ForeignKey "fk" "NO ACTION").nodes "public.A" = some n ∧
      n.type = NodeType.Table ∧ n.size = "" ∧ n.rowCount = 0) ∧
    (∃ n, alookup (newGraph.addEdge "public" "A" "public" "B"
        DependencyType.ForeignKey "fk" "NO ACTION").nodes "public.B" = some n ∧
      n.type = NodeType.Table ∧ n.size = "" ∧ n.rowCount = 0) :=
  ⟨(C8_addEdge_endpoints_exist newGraph "public" "A" "public" "B"
      DependencyType.ForeignKey "fk" "NO ACTION").2.2.1 rfl,
   (C8_addEdge_endpoints_exist newGraph "public" "A" "public" "B"
      DependencyType.ForeignKey "fk" "NO ACTION").2.2.2 rfl⟩

/-- C9: re-adding an existing id never erases previously-set values: the
node's schema, name, type and indexes are unchanged, a non-empty size and a
non-zero row count are never overwritten, size and row count can only keep
their old value or take the newly supplied one, and a repeated call with
blank size and zero row count leaves the graph entirely unchanged. -/
theorem C9_addNode_idempotent (g : Graph) (schema name : String) (ty : NodeType)
    (size : String) (rc : Int) (n : Node)
    (h : alookup g.nodes (schema ++ "." ++ name) = some n) :
    alookup (g.addNode schema name ty size rc).nodes (schema ++ "." ++ name) =
      some (backfill n size rc) ∧
    (backfill n size rc).schema = n.schema ∧
    (backfill n size rc).name = n.name ∧
    (backfill n size rc).type = n.type ∧
    (backfill n size rc).indexes = n.indexes ∧
    (n.size ≠ "" → (backfill n size rc).size = n.size) ∧
    (n.rowCount ≠ 0 → (backfill n size rc).rowCount = n.rowCount) ∧
    ((backfill n size rc).size = n.size ∨ (backfill n size rc).size = size) ∧
    ((backfill n size rc).rowCount = n.rowCount ∨ (backfill n size rc).rowCount = rc) ∧
    g.addNode schema name ty "" 0 = g := by
  obtain ⟨f1, f2, f3, f4, _, f6, f7⟩ := backfill_fields n size rc
  refine ⟨?_, f1, f2, f3, f4, ?_, ?_, f6, f7, ?_⟩
  · rw [addNode_lookup_self, h]
  · intro hs
    simp only [backfill, hs]
    simp
  · intro hr
    simp only [backfill, hr]
    simp
  · unfold Graph.addNode
    simp only [h]
    rw [aupdate_id _ _ _ backfill_blank]

/-- Witness for C9 at a concrete input: a second `AddNode` on an existing
node with blank size and zero row count changes nothing. -/
theorem C9_addNode_idempotent_witness :
    (newGraph.addNode "public" "A" NodeType.Table "12MB" 7).addNode
        "public" "A" NodeType.View "" 0 =
      newGraph.addNode "public" "A" NodeType.Table "12MB" 7 :=
  (C9_addNode_idempotent (newGraph.addNode "public" "A" NodeType.Table "12MB" 7)
    "public" "A" NodeType.View "" 0
    { id := "public.A", schema := "public", name := "A", type := NodeType.Table,
      size := "12MB", rowCount := 7, indexes := [] } (by decide)).2.2.2.2.2.2.2.2.2

/-- C10: `GetDownstream` never reports the queried node itself, on every
graph, cyclic graphs included: the seed is marked visited before the
traversal starts and only unvisited dependents are ever recorded. -/
theorem C10_getDownstream_excludes_self (g : Graph) (id : String) :
    id ∉ g.getDownstream id := by
  unfold Graph.getDownstream
  apply bfsLoop_not_mem
  · exact List.mem_singleton.mpr rfl
  · exact List.not_mem_nil id

end Claims

end DbGraph
